import Mathlib

/-!
Verification of the ANSI-aware terminal text layout engine in
`unicycler/misc.py`: the style encoder (`colour` and its named wrappers),
the visible width measurer (`remove_formatting` / `len_without_format`),
the text wrapper (Python `textwrap.TextWrapper` as used by `print_table`,
plus the `B|` / `R|` modes of `MyHelpFormatter._split_lines`), the table
layout engine (`print_table`) and the help formatter default suffix
(`MyHelpFormatter._get_help_string`).

Python strings are modelled as `List Char`.  Machinery that the source
reaches through the Python standard library (`textwrap`, `str.replace`,
`re.sub` on the concrete patterns used) is embedded by its documented
behaviour; deviations of scope (ASCII whitespace only, hyphen-free
`wordsep` chunking) are recorded in the doc comments of the definitions.
-/

set_option maxHeartbeats 1000000

/-- Python strings are modelled as lists of characters. -/
abbrev Str := List Char

/-- The escape introducer byte `\x1b` (ESC). -/
def esc : Char := Char.ofNat 27

/-- ANSI code `END_FORMATTING = '\033[0m'` (misc.py:409). -/
def END_FORMATTING : Str := [esc, '[', '0', 'm']

/-- ANSI code `BOLD = '\033[1m'` (misc.py:410). -/
def BOLD : Str := [esc, '[', '1', 'm']

/-- ANSI code `UNDERLINE = '\033[4m'` (misc.py:411). -/
def UNDERLINE : Str := [esc, '[', '4', 'm']

/-- ANSI code `RED = '\033[31m'` (misc.py:412). -/
def RED : Str := [esc, '[', '3', '1', 'm']

/-- ANSI code `GREEN = '\033[32m'` (misc.py:413). -/
def GREEN : Str := [esc, '[', '3', '2', 'm']

/-- ANSI code `MAGENTA = '\033[35m'` (misc.py:414). -/
def MAGENTA : Str := [esc, '[', '3', '5', 'm']

/-- ANSI code `YELLOW = '\033[93m'` (misc.py:415). -/
def YELLOW : Str := [esc, '[', '9', '3', 'm']

/-- ANSI code `DIM = '\033[2m'` (misc.py:416). -/
def DIM : Str := [esc, '[', '2', 'm']

/-- Test whether `pat` is a prefix of `s` (by decidable character equality). -/
def startsWith : Str → Str → Bool
  | [], _ => true
  | _ :: _, [] => false
  | p :: ps, c :: cs => decide (p = c) && startsWith ps cs

/-- Python substring containment `pat in s`: some contiguous run of `s` equals `pat`. -/
def containsSub (pat : Str) : Str → Bool
  | [] => pat.isEmpty
  | c :: rest => startsWith pat (c :: rest) || containsSub pat rest

/-- The six ASCII whitespace characters of Python `string.whitespace`,
which is also the character set replaced by `textwrap` whitespace munging
and matched by an ASCII `\s`. -/
def isPyWS (c : Char) : Bool :=
  decide (c = ' ') || decide (c = '\t') || decide (c = '\n') ||
  decide (c = '\x0d') || decide (c = '\x0b') || decide (c = '\x0c')

/-- The characters stripped by Python `str.strip()` and accepted by
`str.isspace()` (the `Py_UNICODE_ISSPACE` set): the six ASCII whitespace
characters together with the ASCII information separators, NEL, NBSP,
OGHAM SPACE MARK, the Unicode space separators and the line and
paragraph separators.  This is a strict superset of `isPyWS`. -/
def isPyStripWS (c : Char) : Bool :=
  decide (9 ≤ c.toNat ∧ c.toNat ≤ 13) || decide (28 ≤ c.toNat ∧ c.toNat ≤ 31) ||
  decide (c.toNat = 32) || decide (c.toNat = 0x85) || decide (c.toNat = 0xA0) ||
  decide (c.toNat = 0x1680) || decide (0x2000 ≤ c.toNat ∧ c.toNat ≤ 0x200A) ||
  decide (c.toNat = 0x2028) || decide (c.toNat = 0x2029) ||
  decide (c.toNat = 0x202F) || decide (c.toNat = 0x205F) || decide (c.toNat = 0x3000)

/-- Python `s.strip() == ''`: every character is Unicode whitespace.
`str.strip()` strips more characters than the ASCII class used by the
`textwrap` chunking regex, so a chunk the splitter classifies as a word
(for instance a lone NBSP) can still strip to the empty string. -/
def stripEmpty (s : Str) : Bool := s.all isPyStripWS

/-- A string is escape free when it does not contain the escape introducer byte. -/
def escFree (s : Str) : Prop := ∀ c ∈ s, c ≠ esc

instance (s : Str) : Decidable (escFree s) := by
  unfold escFree; infer_instance

/-- Total length of a list of strings. -/
def sumLens (l : List Str) : Nat := (l.map List.length).sum

/-- Index of the first `'m'` in `s` that is not preceded by a newline,
as matched by the non-greedy tail of the regex `'\033.*?m'` (where `.`
does not match `'\n'`).  Returns `none` when a newline or the end of the
string comes first. -/
def findM : Str → Option Nat
  | [] => none
  | c :: rest =>
    if c = 'm' then some 0
    else if c = '\n' then none
    else (findM rest).map (· + 1)

/-- Fuel-driven worker for `remove_formatting`.  The fuel is an upper
bound on the remaining string length, so the zero-fuel branch is never
reached by `remove_formatting` itself. -/
def removeFmtGo : Nat → Str → Str
  | 0, _ => []
  | _ + 1, [] => []
  | fuel + 1, c :: rest =>
    if c = esc then
      match findM rest with
      | some k => removeFmtGo fuel (rest.drop (k + 1))
      | none => c :: removeFmtGo fuel rest
    else
      c :: removeFmtGo fuel rest

/-- Embeds `remove_formatting(text) = re.sub('\033.*?m', '', text)`
(misc.py:737-738): every match of the escape introducer followed
non-greedily by characters up to and including the next `'m'` (with `.`
not matching newlines) is deleted. -/
def remove_formatting (s : Str) : Str := removeFmtGo s.length s

/-- Embeds `len_without_format(text)` (misc.py:730-734) for string
arguments: the length after removing formatting.  The Python `TypeError`
fallback concerns non-string arguments, which are outside this model. -/
def len_without_format (s : Str) : Nat := (remove_formatting s).length

/-- Fuel-driven worker for `pyReplace`; fuel bounds the remaining length. -/
def pyReplaceGo (pat repl : Str) : Nat → Str → Str
  | 0, _ => []
  | _ + 1, [] => []
  | fuel + 1, c :: rest =>
    if startsWith pat (c :: rest) then
      repl ++ pyReplaceGo pat repl fuel (rest.drop (pat.length - 1))
    else
      c :: pyReplaceGo pat repl fuel rest

/-- Embeds Python `s.replace(pat, repl)` for a non-empty pattern: replace
every non-overlapping occurrence, scanning left to right.  All call sites
in the source pass non-empty patterns; for an empty pattern this model
returns `s` unchanged. -/
def pyReplace (s pat repl : Str) : Str :=
  if pat.isEmpty then s else pyReplaceGo pat repl s.length s

/-- Embeds `re.sub('\033\[4m', '', s)` (misc.py:641): remove every
non-overlapping occurrence of the literal underline code, scanning left
to right.  Specialisation of `pyReplace` with an empty replacement. -/
def removeAll (pat : Str) (s : Str) : Str := pyReplace s pat []

/-- Python `str.lower`, modelled for ASCII characters. -/
def lowerStr (s : Str) : Str := s.map Char.toLower

/-- Index of the first occurrence of character `c`, or `none`
(Python `str.find` returning `-1`). -/
def idxOf : Char → Str → Option Nat
  | _, [] => none
  | c, d :: rest => if d = c then some 0 else (idxOf c rest).map (· + 1)

/-- Maximal runs of whitespace and of non-whitespace characters, in
order.  This models the chunking of `textwrap.TextWrapper._split` (the
`wordsep_re` split) restricted to hyphen-free text, on which the regex
degenerates to splitting into whitespace and word runs. -/
def splitRuns (s : Str) : List Str :=
  s.foldr
    (fun c acc =>
      match acc with
      | [] => [[c]]
      | [] :: rest => [c] :: rest
      | (d :: run) :: rest =>
        if isPyWS c = isPyWS d then (c :: d :: run) :: rest
        else [c] :: (d :: run) :: rest)
    []

/-- Accumulating worker for `splitWs`. -/
def splitWsGo : Str → Str → List Str
  | [], acc => if acc.isEmpty then [] else [acc]
  | c :: rest, acc =>
    if isPyStripWS c then
      if acc.isEmpty then splitWsGo rest [] else acc :: splitWsGo rest []
    else splitWsGo rest (acc ++ [c])

/-- Python `str.split()` with no separator: words delimited by runs of
Unicode whitespace (the `str.strip()` character set), with empty strings
discarded. -/
def splitWs (s : Str) : List Str := splitWsGo s []

/-- Fuel-driven worker for `splitSep`; fuel bounds the remaining length. -/
def splitSepGo (sep : Str) : Nat → Str → Str → List Str
  | 0, s, acc => [acc ++ s]
  | fuel + 1, s, acc =>
    match s with
    | [] => [acc]
    | c :: rest =>
      if startsWith sep s then
        acc :: splitSepGo sep fuel (s.drop sep.length) []
      else
        splitSepGo sep fuel rest (acc ++ [c])

/-- Embeds Python `s.split(sep)` for a non-empty separator (Python raises
`ValueError` on an empty separator; the only call site passes `', '`). -/
def splitSep (sep s : Str) : List Str :=
  if sep.isEmpty then [s] else splitSepGo sep s.length s []

/-- A `str.splitlines` line boundary: newline, carriage return, vertical
tab, form feed, the file, group and record separators, NEL, and the
Unicode line and paragraph separators. -/
def isLineBoundary (c : Char) : Bool :=
  decide (c = '\n') || decide (c = '\x0d') || decide (c = '\x0b') ||
  decide (c = '\x0c') || decide (c.toNat = 0x1C) || decide (c.toNat = 0x1D) ||
  decide (c.toNat = 0x1E) || decide (c.toNat = 0x85) ||
  decide (c.toNat = 0x2028) || decide (c.toNat = 0x2029)

/-- Accumulating worker for `splitlinesPy`. -/
def splitlinesGo : Str → Str → List Str
  | [], acc => if acc.isEmpty then [] else [acc]
  | '\x0d' :: '\n' :: rest, acc => acc :: splitlinesGo rest []
  | c :: rest, acc =>
    if isLineBoundary c then acc :: splitlinesGo rest []
    else splitlinesGo rest (acc ++ [c])

/-- Embeds Python `str.splitlines` with its documented line boundaries:
`\r\n` counts as a single boundary, and each of the characters of
`isLineBoundary` ends a line on its own. -/
def splitlinesPy (s : Str) : List Str := splitlinesGo s []

/-- Embeds Python `str.expandtabs(8)`: every tab is replaced with spaces
up to the next multiple of eight columns; carriage returns and newlines
reset the column counter. -/
def expandtabsGo : Nat → Str → Str
  | _, [] => []
  | col, c :: rest =>
    if c = '\t' then
      let pad := 8 - col % 8
      List.replicate pad ' ' ++ expandtabsGo (col + pad) rest
    else if c = '\n' ∨ c = '\x0d' then
      c :: expandtabsGo 0 rest
    else
      c :: expandtabsGo (col + 1) rest

/-- Embeds `TextWrapper._munge_whitespace` with the default settings:
`expand_tabs` then `replace_whitespace`, turning each remaining ASCII
whitespace character into a space. -/
def munge (s : Str) : Str :=
  (expandtabsGo 0 s).map (fun c => if isPyWS c then ' ' else c)

/-- Greedy fill loop of `TextWrapper._wrap_chunks`: consume chunks while
the running length stays within the width, returning the consumed line
chunks and the remaining chunks. -/
def greedyFill (w : Nat) : Nat → List Str → List Str × List Str
  | _, [] => ([], [])
  | curLen, c :: cs =>
    if curLen + c.length ≤ w then
      let t := greedyFill w (curLen + c.length) cs
      (c :: t.1, t.2)
    else
      ([], c :: cs)

/-- Python `chunk.rfind('-', 0, limit)`: the greatest index below
`limit` (and within the string) holding a hyphen, or `none`. -/
def rfindHyphen (s : Str) (limit : Nat) : Option Nat :=
  (List.range (min limit s.length)).reverse.find? (fun i => s.getD i ' ' = '-')

/-- Embeds `TextWrapper._handle_long_word` with `break_long_words = True`
and `break_on_hyphens = True`: break the head chunk at the space left on
the current line, preferring to break just after the last hyphen that
fits when the chunk is hyphenated. -/
def handleLong (w : Nat) (cur : List Str) (rest : List Str) : List Str × List Str :=
  match rest with
  | [] => (cur, [])
  | chunk :: rs =>
    let curLen := sumLens cur
    let spaceLeft := if w < 1 then 1 else w - curLen
    let e :=
      if chunk.length > spaceLeft then
        match rfindHyphen chunk spaceLeft with
        | some h =>
          if 0 < h ∧ (chunk.take h).any (fun c => decide (c ≠ '-')) then h + 1
          else spaceLeft
        | none => spaceLeft
      else spaceLeft
    (cur ++ [chunk.take e], chunk.drop e :: rs)

/-- One iteration of the `TextWrapper._wrap_chunks` loop with the default
options (`initial_indent = ''`, `drop_whitespace = True`,
`max_lines = None`): drop a leading whitespace chunk on continuation
lines, fill greedily, break an over-long head chunk, drop a trailing
whitespace chunk, and emit the line if anything remains.  `started`
records whether a line has been emitted already (Python `if lines:`). -/
def wrapStep (width : Nat) (sind : Str) (started : Bool) (chunks : List Str) :
    Option Str × List Str :=
  let indent := if started then sind else []
  let w := width - indent.length
  let chunks1 :=
    match chunks, started with
    | c :: cs, true => if stripEmpty c then cs else c :: cs
    | _, _ => chunks
  let p1 := greedyFill w 0 chunks1
  let p2 :=
    match p1.2 with
    | r :: _ => if r.length > w then handleLong w p1.1 p1.2 else p1
    | [] => p1
  let cur :=
    if p2.1 ≠ [] ∧ stripEmpty (p2.1.getLastD []) then p2.1.dropLast else p2.1
  (if cur.isEmpty then none else some (indent ++ cur.flatten), p2.2)

/-- Fuel-driven main loop of `TextWrapper._wrap_chunks`.  Every iteration
of the Python loop removes at least one character from the chunk list
(a dropped whitespace chunk, a greedily consumed chunk, or the broken
head of an over-long chunk), so a fuel of one more than the total chunk
length is never exhausted. -/
def wrapLoopF (width : Nat) (sind : Str) : Nat → Bool → List Str → List Str
  | 0, _, _ => []
  | _ + 1, _, [] => []
  | fuel + 1, started, c :: cs =>
    match wrapStep width sind started (c :: cs) with
    | (some l, rest) => l :: wrapLoopF width sind fuel true rest
    | (none, rest) => wrapLoopF width sind fuel started rest

/-- Embeds `textwrap.TextWrapper(subsequent_indent=sind, width=width).wrap(text)`
with the default remaining options, for a positive width: munge the
whitespace, chunk the text, and run the wrapping loop. -/
def plainWrap (width : Nat) (sind : Str) (text : Str) : List Str :=
  let chunks := (splitRuns (munge text)).filter (fun c => !c.isEmpty)
  wrapLoopF width sind (sumLens chunks + 1) false chunks

/-- Wrapping entry point as `print_table` uses it: Python `textwrap`
raises `ValueError` when the configured width is not positive. -/
inductive PyErr where
  | indexError
  | valueError
deriving DecidableEq, Repr

deriving instance DecidableEq for Except

/-- Embeds `TextWrapper.wrap` including the width validity check of
`_wrap_chunks` (`ValueError` unless the width is positive). -/
def textwrap_wrap (width : Nat) (sind : Str) (text : Str) : Except PyErr (List Str) :=
  if width = 0 then .error .valueError else .ok (plainWrap width sind text)

/-- The colour-keyword dispatch chain of `colour` (misc.py:658-667). -/
def colourCode (name : Str) : Str :=
  if containsSub ("red".data) name then RED
  else if containsSub ("green".data) name then GREEN
  else if containsSub ("yellow".data) name then YELLOW
  else if containsSub ("dim".data) name then DIM
  else []

/-- Embeds `colour(text, text_colour)` (misc.py:650-675): detect the
`bold` and `underline` keywords, strip them together with underscores and
spaces, lowercase the rest, pick the colour code, compose colour then
bold then underline, and wrap the text with a trailing reset when any
code was produced. -/
def colour (text : Str) (text_colour : Str) : Str :=
  let bold_text := containsSub ("bold".data) text_colour
  let tc1 := pyReplace text_colour ("bold".data) []
  let underline_text := containsSub ("underline".data) tc1
  let tc2 := pyReplace tc1 ("underline".data) []
  let tc3 := pyReplace tc2 ("_".data) []
  let tc4 := pyReplace tc3 (" ".data) []
  let tc5 := lowerStr tc4
  let c2 := if bold_text then colourCode tc5 ++ BOLD else colourCode tc5
  let c3 := if underline_text then c2 ++ UNDERLINE else c2
  if c3.isEmpty then text else c3 ++ (text ++ END_FORMATTING)

/-- Embeds `green(text)` (misc.py:678-679). -/
def green (text : Str) : Str := GREEN ++ text ++ END_FORMATTING

/-- Embeds `bold_green(text)` (misc.py:682-683). -/
def bold_green (text : Str) : Str := GREEN ++ BOLD ++ text ++ END_FORMATTING

/-- Embeds `red(text)` (misc.py:686-687). -/
def red (text : Str) : Str := RED ++ text ++ END_FORMATTING

/-- Embeds `magenta(text)` (misc.py:690-691). -/
def magenta (text : Str) : Str := MAGENTA ++ text ++ END_FORMATTING

/-- Embeds `bold_red(text)` (misc.py:694-695). -/
def bold_red (text : Str) : Str := RED ++ BOLD ++ text ++ END_FORMATTING

/-- Embeds `bold(text)` (misc.py:698-699). -/
def bold (text : Str) : Str := BOLD ++ text ++ END_FORMATTING

/-- Embeds `bold_underline(text)` (misc.py:702-703). -/
def bold_underline (text : Str) : Str := BOLD ++ UNDERLINE ++ text ++ END_FORMATTING

/-- Embeds `underline(text)` (misc.py:706-707). -/
def underline (text : Str) : Str := UNDERLINE ++ text ++ END_FORMATTING

/-- Embeds `dim(text)` (misc.py:710-711). -/
def dim (text : Str) : Str := DIM ++ text ++ END_FORMATTING

/-- Embeds `dim_underline(text)` (misc.py:714-715). -/
def dim_underline (text : Str) : Str := DIM ++ UNDERLINE ++ text ++ END_FORMATTING

/-- Embeds `bold_yellow(text)` (misc.py:718-719). -/
def bold_yellow (text : Str) : Str := YELLOW ++ BOLD ++ text ++ END_FORMATTING

/-- Embeds `bold_yellow_underline(text)` (misc.py:722-723). -/
def bold_yellow_underline (text : Str) : Str :=
  YELLOW ++ BOLD ++ UNDERLINE ++ text ++ END_FORMATTING

/-- Embeds `bold_red_underline(text)` (misc.py:726-727). -/
def bold_red_underline (text : Str) : Str :=
  RED ++ BOLD ++ UNDERLINE ++ text ++ END_FORMATTING

/-- Embeds Python `s.ljust(w)`: pad on the right with spaces up to `w`. -/
def ljust (s : Str) (w : Nat) : Str := s ++ List.replicate (w - s.length) ' '

/-- Embeds Python `s.rjust(w)`: pad on the left with spaces up to `w`. -/
def rjust (s : Str) (w : Nat) : Str := List.replicate (w - s.length) ' ' ++ s

/-- Embeds Python `s.center(w)` with the CPython padding split
(`left = margin / 2 + (margin AND width AND 1)`). -/
def center (s : Str) (w : Nat) : Str :=
  let marg := w - s.length
  let left := marg / 2 + (marg &&& w &&& 1)
  List.replicate left ' ' ++ s ++ List.replicate (marg - left) ' '

/-- Pointwise combination of three lists, truncating to the shortest,
as Python `zip` over three sequences does. -/
def zip3With (f : α → β → γ → δ) : List α → List β → List γ → List δ
  | a :: as, b :: bs, c :: cs => f a b c :: zip3With f as bs cs
  | _, _, _ => []

/-- The helper loop shared by the `B|` and `R|` branches of
`MyHelpFormatter._split_lines` (misc.py:477-483): append each remaining
part while the projected length fits, otherwise emit the current line
with a trailing join string and restart at the wrap column. -/
def splitLinesLoop (width : Nat) (join : Str) (wrap_column : Nat) :
    List Str → Str → List Str
  | [], cur => [cur]
  | p :: ps, cur =>
    if cur.length + join.length + 1 + p.length ≤ width then
      splitLinesLoop width join wrap_column ps (cur ++ join ++ [' '] ++ p)
    else
      (cur ++ join) :: splitLinesLoop width join wrap_column ps
        (List.replicate wrap_column ' ' ++ p)

/-- Worker for `collapseWs`: a whitespace character followed by more
whitespace is dropped, a whitespace character closing its run becomes a
single space. -/
def collapseWsGo : Str → Str
  | [] => []
  | [c] => if isPyStripWS c then [' '] else [c]
  | c :: d :: rest =>
    if isPyStripWS c then
      if isPyStripWS d then collapseWsGo (d :: rest)
      else ' ' :: collapseWsGo (d :: rest)
    else c :: collapseWsGo (d :: rest)

/-- Embeds `re.sub(r'\s+', ' ', s)`: collapse each run of Unicode
whitespace (regex `\s` matches the `str.isspace()` set) into a single
space, as in the plain branch of `argparse.HelpFormatter._split_lines`. -/
def collapseWs (s : Str) : Str := collapseWsGo s

/-- Embeds Python `s.strip()`: remove leading and trailing Unicode
whitespace. -/
def stripWs (s : Str) : Str :=
  ((s.dropWhile isPyStripWS).reverse.dropWhile isPyStripWS).reverse

/-- Embeds `MyHelpFormatter._split_lines(text, width)` (misc.py:454-486).
A `B|` or `R|` sentinel selects the special modes: logical lines that fit
are kept unchanged; otherwise `B|` splits on whitespace, wraps to the
column of the first equals sign plus two (Python `find` yields `-1`, so a
missing equals sign gives column one) and starts the first line with two
spaces, while `R|` splits on `', '` and rejoins with a trailing comma at
wrap column two.  Without a sentinel the `argparse` fallback collapses
whitespace, strips, and word-wraps.  A `B|` logical line that is over
width yet all whitespace would raise `IndexError` in Python; this model
returns an empty first part there. -/
def split_lines (text : Str) (width : Nat) : List Str :=
  if startsWith ("B|".data) text || startsWith ("R|".data) text then
    (splitlinesPy (text.drop 2)).foldl
      (fun acc line =>
        if line.length ≤ width then acc ++ [line]
        else
          let isB := startsWith ("B|".data) text
          let parts := if isB then splitWs line else splitSep (", ".data) line
          let join : Str := if isB then [] else [',']
          let wrap_column :=
            if isB then
              match idxOf '=' line with
              | some k => k + 2
              | none => 1
            else 2
          let cur0 :=
            if isB then ("  ".data) ++ parts.getD 0 [] else parts.getD 0 []
          acc ++ splitLinesLoop width join wrap_column (parts.drop 1) cur0)
      []
  else
    plainWrap width [] (stripWs (collapseWs text))

/-- Configuration record mirroring the keyword arguments of `print_table`
(misc.py:551-555).  The dictionaries `row_colour`, `sub_colour` and
`row_extra_text` are association lists (Python dictionaries iterate in
insertion order); `verbosity` and `return_str` select the sink and are
not part of the line computation. -/
structure TableCfg where
  alignments : Str
  max_col_width : Nat
  col_separation : Nat
  indent : Nat
  row_colour : List (Nat × Str)
  sub_colour : List (Str × Str)
  row_extra_text : List (Nat × Str)
  leading_newline : Bool
  subsequent_indent : Str
  header_format : Str
  hide_header : Bool
  fixed_col_widths : Option (List Nat)
  left_align_header : Bool
  bottom_align_header : Bool

/-- The default keyword arguments of `print_table`. -/
def defaultCfg : TableCfg :=
  ⟨[], 30, 3, 2, [], [], [], false, [], "underline".data, false, none, true, true⟩

/-- Python cell alignment dispatch (misc.py:624-630): `ljust` for `L`
columns and always for the header when `left_align_header`, `center` for
`C`, `rjust` otherwise. -/
def alignCell (cfg : TableCfg) (i : Nat) (v : Str) (cw : Nat) (a : Char) : Str :=
  if a = 'L' ∨ (i = 0 ∧ cfg.left_align_header) then ljust v cw
  else if a = 'C' then center v cw
  else rjust v cw

/-- The `j`-th physical line of a table row (the body of the inner loop
of `print_table`, misc.py:621-645), given the bottom-aligned wrapped
cells `wrapped2` and the physical row height `row_rows`. -/
def rowLine (cfg : TableCfg) (col_widths : List Nat) (aligns : Str) (i row_rows : Nat)
    (wrapped2 : List (List Str)) (j : Nat) : Str :=
  let row_line := wrapped2.map (fun x => x.getD j [])
  let aligned := zip3With (alignCell cfg i) row_line col_widths aligns
  let s0 := List.intercalate (List.replicate cfg.col_separation ' ') aligned
  let s1 :=
    match cfg.row_extra_text.lookup i with
    | some extra => s0 ++ extra
    | none => s0
  let s2 := if i = 0 ∧ ¬cfg.header_format.isEmpty then colour s1 cfg.header_format else s1
  let s3 :=
    match cfg.row_colour.lookup i with
    | some rc => colour s2 rc
    | none => s2
  let s4 := cfg.sub_colour.foldl
    (fun acc p => pyReplace acc p.1 (colour p.1 p.2)) s3
  let s5 :=
    if j < row_rows - 1 ∧ containsSub UNDERLINE s4 then removeAll UNDERLINE s4
    else s4
  List.replicate cfg.indent ' ' ++ s5

/-- The physical lines of table row `i` as `print_table` produces them
(misc.py:607-645): wrap every cell (at its fixed column width, or at
`max_col_width` in automatic mode), bottom-align a header row, and emit
`rowLine` for every physical line index.  The `ValueError` of Python
`max()` on an empty sequence surfaces when the row has no cells. -/
def renderRow (cfg : TableCfg) (col_widths : List Nat) (aligns : Str)
    (i : Nat) (row : List Str) : Except PyErr (List Str) := do
  let wrapped : List (List Str) ←
    match cfg.fixed_col_widths with
    | some fws =>
      (row.zip fws).mapM (fun p => textwrap_wrap p.2 cfg.subsequent_indent p.1)
    | none => row.mapM (textwrap_wrap cfg.max_col_width cfg.subsequent_indent)
  match wrapped with
  | [] => .error .valueError
  | w0 :: ws =>
    let row_rows := ws.foldl (fun m x => max m x.length) w0.length
    let wrapped2 :=
      if i = 0 ∧ cfg.bottom_align_header then
        (w0 :: ws).map (fun x => List.replicate (row_rows - x.length) ([] : Str) ++ x)
      else w0 :: ws
    .ok ((List.range row_rows).map (rowLine cfg col_widths aligns i row_rows wrapped2))

/-- Automatic column width resolution of `print_table` (misc.py:595-598):
fold over the (normalized) rows, taking per column the maximum of the
accumulated width and the visible cell width, capped at `max_col_width`.
The zip mirrors `enumerate` indexing into `col_widths`; the caller always
passes rows of exactly the accumulator length. -/
def autoColWidths (max_col_width : Nat) (cc : Nat) (table : List (List Str)) : List Nat :=
  table.foldl
    (fun cw row =>
      List.zipWith (fun w x => min (max w (len_without_format x)) max_col_width) cw row)
    (List.replicate cc 0)

/-- Row loop of `print_table` (misc.py:602-645): emit the lines of every
row in order, skipping row zero when the header is hidden. -/
def printRows (cfg : TableCfg) (col_widths : List Nat) (aligns : Str) :
    List (List Str) → Nat → Except PyErr (List Str)
  | [], _ => .ok []
  | r :: rs, i =>
    if cfg.hide_header ∧ i = 0 then printRows cfg col_widths aligns rs (i + 1)
    else do
      let a ← renderRow cfg col_widths aligns i r
      let b ← printRows cfg col_widths aligns rs (i + 1)
      .ok (a ++ b)

/-- Embeds `print_table(table, ...)` (misc.py:551-647), producing the
emitted lines in order (each line is what the string mode appends or the
logging sink receives).  `len(table[0])` raises `IndexError` on an empty
table; every row is truncated and padded to the column count of row zero;
the alignment string is padded with `'L'` and truncated; column widths
come from `fixed_col_widths` or from the automatic fold; a leading
newline contributes an empty line. -/
def print_table (table : List (List Str)) (cfg : TableCfg) : Except PyErr (List Str) :=
  match table with
  | [] => .error .indexError
  | r0 :: _ =>
    let cc := r0.length
    let table2 := table.map (fun x =>
      x.take cc ++ List.replicate (cc - (x.take cc).length) ([] : Str))
    let aligns : Str :=
      (cfg.alignments ++ List.replicate (cc - cfg.alignments.length) 'L').take cc
    let col_widths :=
      match cfg.fixed_col_widths with
      | some w => w
      | none => autoColWidths cfg.max_col_width cc table2
    (printRows cfg col_widths aligns table2 0).map (fun ls =>
      (if cfg.leading_newline then [([] : Str)] else []) ++ ls)

/-- A Python value as far as `argparse` defaults are concerned: `None`,
a string, or an integer. -/
inductive PyVal where
  | none
  | str (s : Str)
  | int (n : Int)
deriving DecidableEq

/-- Python `str(v)` for the modelled values. -/
def pyStr : PyVal → Str
  | .none => "None".data
  | .str s => s
  | .int n => (toString n).data

/-- The `argparse.SUPPRESS` marker, the string `'==SUPPRESS=='`. -/
def SUPPRESS : Str := "==SUPPRESS==".data

/-- Python `action.default != argparse.SUPPRESS`: only the string value
`'==SUPPRESS=='` compares equal to the marker. -/
def neSuppress : PyVal → Bool
  | .str s => decide (s ≠ SUPPRESS)
  | _ => true

/-- Embeds `MyHelpFormatter._get_help_string` (misc.py:435-444): append
`' (default: <value>)'` when the default is not suppressed, the lowered
help text does not mention `default`, and the default is not `None`. -/
def get_help_string (dflt : PyVal) (help_text : Str) : Str :=
  if neSuppress dflt ∧ ¬containsSub ("default".data) (lowerStr help_text) ∧ dflt ≠ .none
  then help_text ++ (" (default: ".data) ++ pyStr dflt ++ (")".data)
  else help_text

/-- Consecutive pieces of exactly `w` characters (the last piece may be
shorter); states how `break_long_words` chops an over-long word.  The
fuel equals the string length and is never exhausted for `1 ≤ w`. -/
def chunksOfGo (w : Nat) : Nat → Str → List Str
  | 0, _ => []
  | _ + 1, [] => []
  | fuel + 1, c :: rest => (c :: rest).take w :: chunksOfGo w fuel ((c :: rest).drop w)

/-- Splits a string into consecutive pieces of `w` characters. -/
def chunksOf (w : Nat) (s : Str) : List Str := chunksOfGo w s.length s

/-- The eight composed escape codes the style encoder can emit. -/
def styleAtoms : List Str :=
  [END_FORMATTING, BOLD, UNDERLINE, RED, GREEN, MAGENTA, YELLOW, DIM]

/-- Strings built from escape-free characters and whole style codes.
Every line the table renderer styles has this shape, which is what makes
the single-pass underline removal complete; arbitrary escape bytes in
cell text can defeat it. -/
inductive CodeSeq : Str → Prop where
  | nil : CodeSeq []
  | plainCons (c : Char) (q : Str) : c ≠ esc → CodeSeq q → CodeSeq (c :: q)
  | codeCons (a : Str) (q : Str) : a ∈ styleAtoms → CodeSeq q → CodeSeq (a ++ q)

/-! ### Unfolding lemmas for the fuel-driven definitions -/

theorem removeFmtGo_fuel : ∀ (f1 f2 : Nat) (s : Str), s.length ≤ f1 → s.length ≤ f2 →
    removeFmtGo f1 s = removeFmtGo f2 s := by
  intro f1
  induction f1 with
  | zero =>
    intro f2 s h1 _
    have hs : s = [] := List.eq_nil_of_length_eq_zero (Nat.le_zero.mp h1)
    subst hs
    cases f2 <;> rfl
  | succ f ih =>
    intro f2 s h1 h2
    cases s with
    | nil => cases f2 <;> rfl
    | cons c rest =>
      cases f2 with
      | zero => exact absurd h2 (by simp)
      | succ f2' =>
        simp only [removeFmtGo]
        have hr : rest.length ≤ f := Nat.le_of_succ_le_succ h1
        have hr2 : rest.length ≤ f2' := Nat.le_of_succ_le_succ h2
        have hdl : ∀ k, (rest.drop (k + 1)).length ≤ rest.length := by
          intro k
          rw [List.length_drop]
          omega
        by_cases hc : c = esc
        · rw [if_pos hc, if_pos hc]
          cases hk : findM rest with
          | some k =>
            exact ih f2' _ (le_trans (hdl k) hr) (le_trans (hdl k) hr2)
          | none =>
            exact congrArg (c :: ·) (ih f2' rest hr hr2)
        · rw [if_neg hc, if_neg hc]
          exact congrArg (c :: ·) (ih f2' rest hr hr2)

theorem remove_formatting_cons_ne (c : Char) (s : Str) (hc : c ≠ esc) :
    remove_formatting (c :: s) = c :: remove_formatting s := by
  show removeFmtGo (s.length + 1) (c :: s) = c :: removeFmtGo s.length s
  simp only [removeFmtGo, if_neg hc]

theorem remove_formatting_esc (s : Str) :
    remove_formatting (esc :: s) =
      match findM s with
      | some k => remove_formatting (s.drop (k + 1))
      | none => esc :: remove_formatting s := by
  show removeFmtGo (s.length + 1) (esc :: s) = _
  simp only [removeFmtGo, if_pos rfl]
  cases hk : findM s with
  | some k =>
    exact removeFmtGo_fuel _ _ _ (le_trans (by simp) (Nat.le_refl _)) (Nat.le_refl _)
  | none => rfl

theorem remove_formatting_escFree (s : Str) (hs : escFree s) :
    remove_formatting s = s := by
  induction s with
  | nil => rfl
  | cons c rest ih =>
    have hc : c ≠ esc := hs c (by simp)
    rw [remove_formatting_cons_ne c rest hc,
      ih (fun d hd => hs d (List.mem_cons_of_mem c hd))]

theorem remove_formatting_append_escFree (p q : Str) (hp : escFree p) :
    remove_formatting (p ++ q) = p ++ remove_formatting q := by
  induction p with
  | nil => rfl
  | cons c rest ih =>
    have hc : c ≠ esc := hp c (by simp)
    rw [List.cons_append, remove_formatting_cons_ne c _ hc,
      ih (fun d hd => hp d (List.mem_cons_of_mem c hd))]
    rfl

/-! ### C10: named convenience wrappers agree with the generic encoder -/

/-- C10: for every string `t`, each named convenience wrapper built from
the keywords red, green, yellow, dim, bold, underline produces exactly
the same output as the generic encoder `colour` applied to the
corresponding space-separated style name. -/
theorem C10_wrappers_agree_with_colour (t : Str) :
    green t = colour t ("green".data) ∧
    red t = colour t ("red".data) ∧
    dim t = colour t ("dim".data) ∧
    bold t = colour t ("bold".data) ∧
    underline t = colour t ("underline".data) ∧
    bold_green t = colour t ("bold green".data) ∧
    bold_red t = colour t ("bold red".data) ∧
    bold_underline t = colour t ("bold underline".data) ∧
    dim_underline t = colour t ("dim underline".data) ∧
    bold_yellow t = colour t ("bold yellow".data) ∧
    bold_yellow_underline t = colour t ("bold yellow underline".data) ∧
    bold_red_underline t = colour t ("bold red underline".data) := by
  refine ⟨?_, ?_, ?_, ?_, ?_, ?_, ?_, ?_, ?_, ?_, ?_, ?_⟩ <;> rfl

/-! ### C9: the default-value suffix condition -/

/-- C9: the help formatter appends the suffix `' (default: <value>)'` to
the help text if and only if the default is not the suppression marker,
is not `None`, and the lowercased help text does not already contain the
substring `default`; otherwise the text is returned unchanged. -/
theorem C9_default_suffix (d : PyVal) (h : Str) :
    ((neSuppress d = true ∧ containsSub ("default".data) (lowerStr h) = false ∧
        d ≠ PyVal.none) →
      get_help_string d h = h ++ (" (default: ".data) ++ pyStr d ++ (")".data)) ∧
    (get_help_string d h = h ↔
      ¬(neSuppress d = true ∧ containsSub ("default".data) (lowerStr h) = false ∧
        d ≠ PyVal.none)) := by
  constructor
  · intro hc
    unfold get_help_string
    rw [if_pos ⟨hc.1, by simp [hc.2.1], hc.2.2⟩]
  · unfold get_help_string
    by_cases hc : neSuppress d = true ∧ containsSub ("default".data) (lowerStr h) = false ∧
        d ≠ PyVal.none
    · rw [if_pos ⟨hc.1, by simp [hc.2.1], hc.2.2⟩]
      constructor
      · intro heq
        exfalso
        have hl := congrArg List.length heq
        simp at hl
      · intro hn
        exact absurd hc hn
    · have hc2 : ¬(neSuppress d = true ∧
          ¬containsSub ("default".data) (lowerStr h) = true ∧ d ≠ PyVal.none) := by
        intro ⟨a, b, c⟩
        exact hc ⟨a, by simpa using b, c⟩
      rw [if_neg hc2]
      simp [hc]

/-- C9 witness: a concrete option with an integer default and help text
not mentioning defaults receives the suffix. -/
theorem C9_default_suffix_witness :
    (neSuppress (PyVal.int 8) = true ∧
      containsSub ("default".data) (lowerStr ("number of threads".data)) = false ∧
      PyVal.int 8 ≠ PyVal.none) ∧
    get_help_string (PyVal.int 8) ("number of threads".data) =
      ("number of threads".data) ++ (" (default: ".data) ++ pyStr (PyVal.int 8) ++ (")".data) :=
  ⟨by decide, (C9_default_suffix (PyVal.int 8) ("number of threads".data)).1 (by decide)⟩

/-! ### C8: styling never changes the visible width -/

/-- C8: for every escape-free string `s`, the visible width of
`colour(s, 'red')` equals the visible width of `s`. -/
theorem C8_red_keeps_visible_width (s : Str) (hs : escFree s) :
    len_without_format (colour s ("red".data)) = len_without_format s := by
  have h1 : colour s ("red".data) = RED ++ (s ++ END_FORMATTING) := rfl
  have h2 : remove_formatting (RED ++ (s ++ END_FORMATTING)) =
      remove_formatting (s ++ END_FORMATTING) := by
    show remove_formatting (esc :: (['[', '3', '1', 'm'] ++ (s ++ END_FORMATTING))) = _
    rw [remove_formatting_esc]
    simp [findM]
  have h3 : remove_formatting (s ++ END_FORMATTING) = s ++ remove_formatting END_FORMATTING :=
    remove_formatting_append_escFree s END_FORMATTING hs
  have h4 : remove_formatting END_FORMATTING = [] := by decide
  rw [len_without_format, h1, h2, h3, h4, len_without_format,
    remove_formatting_escFree s hs]
  simp

/-- C8 witness at a concrete plain string. -/
theorem C8_red_keeps_visible_width_witness :
    escFree ("abc".data) ∧
    len_without_format (colour ("abc".data) ("red".data)) =
      len_without_format ("abc".data) :=
  ⟨by decide, C8_red_keeps_visible_width ("abc".data) (by decide)⟩

/-! ### C6: automatic column width resolution -/

theorem foldl_min_max (mcw : Nat) : ∀ (ls : List Nat) (a : Nat),
    ls.foldl (fun w l => min (max w l) mcw) (min a mcw) =
    min (ls.foldl max a) mcw := by
  intro ls
  induction ls with
  | nil => intro a; rfl
  | cons l t ih =>
    intro a
    simp only [List.foldl_cons]
    have h : min (max (min a mcw) l) mcw = min (max a l) mcw := by omega
    rw [h, ih (max a l)]

theorem zipWith_getD (f : Nat → Str → Nat) :
    ∀ (ws : List Nat) (rs : List Str) (i : Nat), i < ws.length → i < rs.length →
    (List.zipWith f ws rs).getD i 0 = f (ws.getD i 0) (rs.getD i []) := by
  intro ws
  induction ws with
  | nil => intro rs i h1 _; exact absurd h1 (by simp)
  | cons w wt ih =>
    intro rs i h1 h2
    cases rs with
    | nil => exact absurd h2 (by simp)
    | cons r rt =>
      cases i with
      | zero => rfl
      | succ i' =>
        simp only [List.zipWith_cons_cons, List.getD_cons_succ]
        exact ih rt i' (Nat.lt_of_succ_lt_succ h1) (Nat.lt_of_succ_lt_succ h2)

theorem getD_replicate_zero : ∀ (cc i : Nat), (List.replicate cc (0 : Nat)).getD i 0 = 0 := by
  intro cc
  induction cc with
  | zero => intro i; cases i <;> rfl
  | succ n ih =>
    intro i
    cases i with
    | zero => rfl
    | succ j => simp [List.replicate_succ, List.getD_cons_succ, ih j]

theorem autoFold_getD (f : Nat → Str → Nat) :
    ∀ (table : List (List Str)) (init : List Nat),
    (∀ r ∈ table, r.length = init.length) → ∀ i, i < init.length →
    (table.foldl (fun cw row => List.zipWith f cw row) init).getD i 0 =
      table.foldl (fun a row => f a (row.getD i [])) (init.getD i 0) := by
  intro table
  induction table with
  | nil => intro init _ i _; rfl
  | cons r t ih =>
    intro init hlen i hi
    have hr : r.length = init.length := hlen r (by simp)
    have hzlen : (List.zipWith f init r).length = init.length := by
      rw [List.length_zipWith, hr]
      exact Nat.min_self _
    simp only [List.foldl_cons]
    rw [ih (List.zipWith f init r)
      (fun r' hr' => by rw [hzlen]; exact hlen r' (List.mem_cons_of_mem r hr'))
      i (by rw [hzlen]; exact hi)]
    rw [zipWith_getD f init r i hi (by rw [hr]; exact hi)]

/-- C6: in automatic mode, the resolved width of every column equals the
minimum of `max_col_width` and the maximum visible width over all cells
of that column across all rows. -/
theorem C6_auto_column_widths (mcw cc : Nat) (table : List (List Str))
    (hlen : ∀ r ∈ table, r.length = cc) (i : Nat) (hi : i < cc) :
    (autoColWidths mcw cc table).getD i 0 =
      min mcw (table.foldl (fun a r => max a (len_without_format (r.getD i []))) 0) := by
  unfold autoColWidths
  rw [autoFold_getD (fun w x => min (max w (len_without_format x)) mcw) table
    (List.replicate cc 0)
    (fun r hr => by rw [List.length_replicate]; exact hlen r hr)
    i (by rw [List.length_replicate]; exact hi)]
  rw [getD_replicate_zero cc i]
  have hmap : ∀ (g : Nat → Nat → Nat) (a : Nat),
      table.foldl (fun a r => g a (len_without_format (r.getD i []))) a =
      (table.map (fun r => len_without_format (r.getD i []))).foldl g a := by
    intro g a
    rw [List.foldl_map]
  rw [hmap (fun w l => min (max w l) mcw) 0, hmap max 0]
  have key := foldl_min_max mcw (table.map (fun r => len_without_format (r.getD i []))) 0
  rw [Nat.zero_min] at key
  rw [key]
  omega

/-- C6 witness at a concrete two-row table whose second column is capped
by the maximum column width. -/
theorem C6_auto_column_widths_witness :
    (∀ r ∈ [[("ab".data), ("cdefg".data)], [("x".data), ("yz".data)]],
      r.length = 2) ∧
    (autoColWidths 4 2 [[("ab".data), ("cdefg".data)], [("x".data), ("yz".data)]]).getD 1 0 =
      min 4 ([[("ab".data), ("cdefg".data)], [("x".data), ("yz".data)]].foldl
        (fun a r => max a (len_without_format (r.getD 1 []))) 0) :=
  ⟨by decide, C6_auto_column_widths 4 2 _ (by decide) 1 (by decide)⟩

/-! ### C3: the one-item-per-line scenario -/

/-- C3 counterexample: the first line that
`wrap('opt1, opt2, opt3, opt4', 10, ListPerLine)` produces has visible
width eleven, exceeding the requested width of ten, because the trailing
join comma is appended after the fit check. -/
theorem C3_width_exceeded_counterexample :
    0 < (split_lines ("R|opt1, opt2, opt3, opt4".data) 10).length ∧
    len_without_format ((split_lines ("R|opt1, opt2, opt3, opt4".data) 10).getD 0 []) = 11 := by
  decide

/-- C3 amended: the scenario produces three lines that pack the
comma-joined tokens greedily, and every produced line has visible width
at most width plus one (the continuation comma may overhang by one
character). -/
theorem C3_list_per_line_scenario :
    split_lines ("R|opt1, opt2, opt3, opt4".data) 10 =
      [("opt1, opt2,".data), ("  opt3,".data), ("  opt4".data)] ∧
    2 ≤ (split_lines ("R|opt1, opt2, opt3, opt4".data) 10).length ∧
    (split_lines ("R|opt1, opt2, opt3, opt4".data) 10).all
      (fun l => len_without_format l ≤ 11) = true := by
  decide

/-! ### Structural lemmas on chunking and the wrapping loop -/

theorem expandtabsGo_no_tab : ∀ (s : Str) (col : Nat), (∀ c ∈ s, c ≠ '\t') →
    expandtabsGo col s = s := by
  intro s
  induction s with
  | nil => intro col _; rfl
  | cons c rest ih =>
    intro col hc
    have hct : c ≠ '\t' := hc c (by simp)
    simp only [expandtabsGo, if_neg hct]
    by_cases hnl : c = '\n' ∨ c = '\x0d'
    · rw [if_pos hnl]
      exact congrArg (c :: ·) (ih 0 (fun d hd => hc d (List.mem_cons_of_mem c hd)))
    · rw [if_neg hnl]
      exact congrArg (c :: ·) (ih (col + 1) (fun d hd => hc d (List.mem_cons_of_mem c hd)))

theorem munge_id (s : Str) (hws : ∀ c ∈ s, isPyWS c = true → c = ' ') :
    munge s = s := by
  unfold munge
  have hnt : ∀ c ∈ s, c ≠ '\t' := by
    intro c hc hct
    have := hws c hc (by rw [hct]; decide)
    rw [hct] at this
    exact absurd this (by decide)
  rw [expandtabsGo_no_tab s 0 hnt]
  have : ∀ c ∈ s, (if isPyWS c then ' ' else c) = c := by
    intro c hc
    by_cases hpw : isPyWS c
    · rw [if_pos hpw, hws c hc hpw]
    · rw [if_neg hpw]
  calc s.map (fun c => if isPyWS c then ' ' else c) = s.map id := List.map_congr_left this
    _ = s := List.map_id s

theorem splitRuns_step_flatten (c : Char) (rs : List Str) :
    (match rs with
      | [] => [[c]]
      | [] :: rest => [c] :: rest
      | (d :: run) :: rest =>
        if isPyWS c = isPyWS d then (c :: d :: run) :: rest
        else [c] :: (d :: run) :: rest).flatten = c :: rs.flatten := by
  match rs with
  | [] => rfl
  | [] :: rest => simp
  | (d :: run) :: rest =>
    show (if isPyWS c = isPyWS d then (c :: d :: run) :: rest
      else [c] :: (d :: run) :: rest).flatten = _
    by_cases h : isPyWS c = isPyWS d
    · rw [if_pos h]; simp
    · rw [if_neg h]; simp

theorem splitRuns_flatten (s : Str) : (splitRuns s).flatten = s := by
  induction s with
  | nil => rfl
  | cons c rest ih =>
    show (match splitRuns rest with
      | [] => [[c]]
      | [] :: rest => [c] :: rest
      | (d :: run) :: rest =>
        if isPyWS c = isPyWS d then (c :: d :: run) :: rest
        else [c] :: (d :: run) :: rest).flatten = c :: rest
    rw [splitRuns_step_flatten c (splitRuns rest), ih]

theorem splitRuns_step_mem (c : Char) (rs : List Str) (hrs : ∀ r ∈ rs, r ≠ []) :
    ∀ r ∈ (match rs with
      | [] => [[c]]
      | [] :: rest => [c] :: rest
      | (d :: run) :: rest =>
        if isPyWS c = isPyWS d then (c :: d :: run) :: rest
        else [c] :: (d :: run) :: rest), r ≠ [] := by
  match rs with
  | [] =>
    intro r hr
    simp at hr
    simp [hr]
  | [] :: rest =>
    intro r hr
    have hr2 : r ∈ [c] :: rest := hr
    rcases List.mem_cons.mp hr2 with h1 | h2
    · simp [h1]
    · exact hrs r (List.mem_cons_of_mem [] h2)
  | (d :: run) :: rest =>
    intro r hr
    have hr2 : r ∈ (if isPyWS c = isPyWS d then (c :: d :: run) :: rest
        else [c] :: (d :: run) :: rest) := hr
    by_cases hcls : isPyWS c = isPyWS d
    · rw [if_pos hcls] at hr2
      rcases List.mem_cons.mp hr2 with h1 | h2
      · simp [h1]
      · exact hrs r (List.mem_cons_of_mem _ h2)
    · rw [if_neg hcls] at hr2
      rcases List.mem_cons.mp hr2 with h1 | h2
      · simp [h1]
      · exact hrs r h2

theorem splitRuns_ne_nil (s : Str) : ∀ r ∈ splitRuns s, r ≠ [] := by
  induction s with
  | nil => intro r hr; simp [splitRuns] at hr
  | cons c rest ih =>
    intro r hr
    exact splitRuns_step_mem c (splitRuns rest) ih r hr

theorem splitRuns_filter (s : Str) :
    (splitRuns s).filter (fun c => !c.isEmpty) = splitRuns s := by
  apply List.filter_eq_self.mpr
  intro r hr
  have := splitRuns_ne_nil s r hr
  simp [List.isEmpty_iff, this]

theorem sumLens_eq_length_flatten (rs : List Str) : sumLens rs = rs.flatten.length := by
  rw [sumLens, List.length_flatten]

theorem greedyFill_all (w : Nat) : ∀ (chunks : List Str) (curLen : Nat),
    curLen + sumLens chunks ≤ w → greedyFill w curLen chunks = (chunks, []) := by
  intro chunks
  induction chunks with
  | nil => intro curLen _; rfl
  | cons c cs ih =>
    intro curLen hsum
    have hsum2 : sumLens (c :: cs) = c.length + sumLens cs := by
      simp [sumLens]
    have hfit : curLen + c.length ≤ w := by omega
    simp only [greedyFill, if_pos hfit]
    rw [ih (curLen + c.length) (by omega)]

theorem wrapLoopF_nil (width : Nat) (sind : Str) : ∀ (f : Nat) (b : Bool),
    wrapLoopF width sind f b [] = [] := by
  intro f b
  cases f <;> rfl

theorem getLastD_of_ne_nil (l : List Str) (hl : l ≠ []) (a b : Str) :
    l.getLastD a = l.getLastD b := by
  rw [List.getLastD_eq_getLast?, List.getLastD_eq_getLast?]
  obtain ⟨z, hz⟩ : ∃ z, l.getLast? = some z := by
    cases h : l.getLast? with
    | none => exact absurd (by simpa using List.getLast?_eq_none_iff.mp h) hl
    | some z => exact ⟨z, rfl⟩
  rw [hz]
  rfl

theorem flatten_getLastD (rs : List Str) (hne : rs ≠ []) (h : ∀ r ∈ rs, r ≠ []) :
    rs.flatten.getLast? = (rs.getLastD []).getLast? := by
  induction rs with
  | nil => simp at hne
  | cons r t ih =>
    cases t with
    | nil => simp [List.getLastD_cons]
    | cons r2 t2 =>
      have ht : (r2 :: t2) ≠ [] := by simp
      have hmem : ∀ x ∈ r2 :: t2, x ≠ [] := fun x hx => h x (List.mem_cons_of_mem r hx)
      have hfne : (r2 :: t2).flatten ≠ [] := by
        simp only [List.flatten_cons]
        intro hc
        exact hmem r2 (by simp) (List.append_eq_nil.mp hc).1
      have hR : (r :: r2 :: t2).getLastD [] = (r2 :: t2).getLastD [] := by
        simp only [List.getLastD_cons]
      rw [List.flatten_cons, List.getLast?_append_of_ne_nil r hfne, ih ht hmem, hR]

theorem wrapStep_fits (width : Nat) (sind : Str) (c0 : Str) (cs : List Str)
    (hsum : sumLens (c0 :: cs) ≤ width)
    (hlast : stripEmpty ((c0 :: cs).getLastD []) = false) :
    wrapStep width sind false (c0 :: cs) = (some (c0 :: cs).flatten, []) := by
  unfold wrapStep
  simp only [Bool.false_eq_true, if_false, List.length_nil, Nat.sub_zero]
  rw [greedyFill_all width (c0 :: cs) 0 (by omega)]
  have hcond : ¬((c0 :: cs) ≠ [] ∧ stripEmpty ((c0 :: cs).getLastD []) = true) := by
    intro hc
    rw [hlast] at hc
    exact absurd hc.2 (by simp)
  rw [if_neg hcond]
  simp

theorem isPyStripWS_of_ws (c : Char) (h : isPyWS c = true) : isPyStripWS c = true := by
  unfold isPyWS at h
  simp only [Bool.or_eq_true, decide_eq_true_eq] at h
  rcases h with ((((h | h) | h) | h) | h) | h <;> subst h <;> decide

theorem isPyWS_false_of_strip (c : Char) (h : isPyStripWS c = false) :
    isPyWS c = false := by
  by_cases hw : isPyWS c
  · rw [isPyStripWS_of_ws c hw] at h
    exact absurd h (by simp)
  · simpa using hw

/-! ### C1: wrapping text that already fits -/

/-- C1 counterexample: the string `'a '` has visible width two (at most
five) and no forced line breaks, yet Plain wrapping at width five drops
its trailing space instead of returning it unchanged. -/
theorem C1_fits_unchanged_counterexample :
    len_without_format ("a ".data) ≤ 5 ∧
    '\n' ∉ ("a ".data) ∧ '\x0d' ∉ ("a ".data) ∧
    plainWrap 5 [] ("a ".data) ≠ [("a ".data)] := by
  decide

/-- C1 amended: Plain wrapping returns `[s]` unchanged, for any
continuation indent, provided `s` is non-empty, its raw length (not
merely its visible length) is at most the width, its only Unicode
whitespace characters (the set `str.strip()` removes, which includes
NBSP and NEL beyond ASCII) are plain spaces, and it does not end in a
space.  Whitespace normalisation, the dropping of leading and trailing
whitespace chunks, and the escape-blind raw length used by the wrapper
make the stronger original statement false. -/
theorem C1_plain_wrap_fits (width : Nat) (sind : Str) (s : Str)
    (hne : s ≠ []) (hlen : s.length ≤ width)
    (hws : ∀ c ∈ s, isPyStripWS c = true → c = ' ')
    (hlast : s.getLast? ≠ some ' ') :
    plainWrap width sind s = [s] := by
  unfold plainWrap
  rw [munge_id s (fun c hc hw => hws c hc (isPyStripWS_of_ws c hw)), splitRuns_filter s]
  have hflat := splitRuns_flatten s
  have hsum : sumLens (splitRuns s) = s.length := by
    rw [sumLens_eq_length_flatten, hflat]
  obtain ⟨c0, cs, hcons⟩ : ∃ c0 cs, splitRuns s = c0 :: cs := by
    cases h : splitRuns s with
    | nil =>
      rw [h] at hflat
      simp at hflat
      exact absurd hflat hne
    | cons a b => exact ⟨a, b, rfl⟩
  obtain ⟨cL, hcL⟩ : ∃ cL, s.getLast? = some cL := by
    cases h : s.getLast? with
    | none => exact absurd (by simpa using List.getLast?_eq_none_iff.mp h) hne
    | some a => exact ⟨a, rfl⟩
  have hcLs : cL ∈ s := List.mem_of_mem_getLast? (by rw [hcL]; rfl)
  have hcLw : isPyStripWS cL = false := by
    by_cases hw : isPyStripWS cL
    · rw [hws cL hcLs hw] at hcL
      exact absurd hcL hlast
    · simpa using hw
  have hlastChunk : stripEmpty ((splitRuns s).getLastD []) = false := by
    have hrsne : splitRuns s ≠ [] := by rw [hcons]; simp
    have hfl : ((splitRuns s).getLastD []).getLast? = s.getLast? := by
      rw [← flatten_getLastD (splitRuns s) hrsne (splitRuns_ne_nil s), hflat]
    have hcLr : cL ∈ (splitRuns s).getLastD [] :=
      List.mem_of_mem_getLast? (by rw [hfl, hcL]; rfl)
    by_cases hstrip : stripEmpty ((splitRuns s).getLastD [])
    · have := List.all_eq_true.mp hstrip cL hcLr
      rw [hcLw] at this
      exact absurd this (by simp)
    · simpa using hstrip
  rw [hcons] at hsum hlastChunk ⊢
  show wrapLoopF width sind (sumLens (c0 :: cs) + 1) false (c0 :: cs) = [s]
  rw [hsum]
  obtain ⟨n, hn⟩ : ∃ n, s.length = n + 1 := by
    cases s with
    | nil => simp at hne
    | cons a b => exact ⟨b.length, by simp⟩
  rw [hn]
  have hstep := wrapStep_fits width sind c0 cs (by omega) hlastChunk
  show wrapLoopF width sind (n + 1 + 1) false (c0 :: cs) = [s]
  simp only [wrapLoopF, hstep]
  rw [← hcons, hflat]

/-- C1 amended witness: a concrete fitting string is returned unchanged. -/
theorem C1_plain_wrap_fits_witness :
    (("ab cd".data) ≠ [] ∧ ("ab cd".data).length ≤ 9 ∧
      (∀ c ∈ ("ab cd".data), isPyStripWS c = true → c = ' ') ∧
      ("ab cd".data).getLast? ≠ some ' ') ∧
    plainWrap 9 ("xx".data) ("ab cd".data) = [("ab cd".data)] :=
  ⟨by decide, C1_plain_wrap_fits 9 ("xx".data) ("ab cd".data) (by decide) (by decide)
    (by decide) (by decide)⟩

/-! ### C5: over-long words are broken, not placed alone -/

theorem chunksOfGo_fuel (w : Nat) (hw : 1 ≤ w) : ∀ (f1 f2 : Nat) (s : Str),
    s.length ≤ f1 → s.length ≤ f2 → chunksOfGo w f1 s = chunksOfGo w f2 s := by
  intro f1
  induction f1 with
  | zero =>
    intro f2 s h1 _
    have hs : s = [] := List.eq_nil_of_length_eq_zero (Nat.le_zero.mp h1)
    subst hs
    cases f2 <;> rfl
  | succ f ih =>
    intro f2 s h1 h2
    cases s with
    | nil => cases f2 <;> rfl
    | cons c rest =>
      cases f2 with
      | zero => exact absurd h2 (by simp)
      | succ f2' =>
        simp only [List.length_cons] at h1 h2
        simp only [chunksOfGo]
        have hdl : ((c :: rest).drop w).length = rest.length + 1 - w := by
          rw [List.length_drop]
          simp
        rw [ih f2' _ (by omega) (by omega)]

theorem chunksOf_cons (w : Nat) (hw : 1 ≤ w) (s : Str) (hne : s ≠ []) :
    chunksOf w s = s.take w :: chunksOf w (s.drop w) := by
  cases s with
  | nil => exact absurd rfl hne
  | cons c rest =>
    show chunksOfGo w (rest.length + 1) (c :: rest) = _
    simp only [chunksOfGo]
    rw [chunksOfGo_fuel w hw rest.length ((c :: rest).drop w).length ((c :: rest).drop w)
      (by rw [List.length_drop]; simp only [List.length_cons]; omega) (Nat.le_refl _)]
    rfl

theorem getD_mem_of_lt (s : Str) (i : Nat) (d : Char) (h : i < s.length) :
    s.getD i d ∈ s := by
  rw [List.getD_eq_getElem s d h]
  exact List.getElem_mem h

theorem rfindHyphen_none (s : Str) (l : Nat) (h : ∀ c ∈ s, c ≠ '-') :
    rfindHyphen s l = none := by
  unfold rfindHyphen
  apply List.find?_eq_none.mpr
  intro i hi
  rw [List.mem_reverse, List.mem_range] at hi
  have hil : i < s.length := lt_of_lt_of_le hi (Nat.min_le_right _ _)
  have hne := h (s.getD i ' ') (getD_mem_of_lt s i ' ' hil)
  simpa [List.getD] using hne

theorem stripEmpty_false_of_head (c : Char) (rest : Str) (hc : isPyStripWS c = false) :
    stripEmpty (c :: rest) = false := by
  unfold stripEmpty
  simp [hc]

theorem handleLong_single (width : Nat) (hw : 1 ≤ width) (s : Str) (cs : List Str)
    (hnohyph : ∀ c ∈ s, c ≠ '-') (hlong : width < s.length) :
    handleLong width [] (s :: cs) = ([s.take width], s.drop width :: cs) := by
  simp only [handleLong]
  have h1 : (if width < 1 then 1 else width - sumLens []) = width := by
    rw [if_neg (by omega)]
    simp [sumLens]
  rw [h1, rfindHyphen_none s width hnohyph]
  have hgt : s.length > width := by omega
  rw [if_pos hgt]
  simp

theorem wrapStep_started_irrel (width : Nat) (c : Str) (cs : List Str)
    (hstrip : stripEmpty c = false) :
    wrapStep width [] true (c :: cs) = wrapStep width [] false (c :: cs) := by
  unfold wrapStep
  simp [hstrip]

theorem wrapStep_single_word (width : Nat) (hw : 1 ≤ width) (s : Str) (b : Bool)
    (hne : s ≠ []) (hc : ∀ c ∈ s, isPyStripWS c = false ∧ c ≠ '-') :
    wrapStep width [] b [s] =
      if s.length ≤ width then (some s, []) else (some (s.take width), [s.drop width]) := by
  obtain ⟨c0, rest, rfl⟩ : ∃ c0 rest, s = c0 :: rest := by
    cases s with
    | nil => exact absurd rfl hne
    | cons a t => exact ⟨a, t, rfl⟩
  have hhead : isPyStripWS c0 = false := (hc c0 (by simp)).1
  have hstrip : stripEmpty (c0 :: rest) = false := stripEmpty_false_of_head c0 rest hhead
  have hb : wrapStep width [] b [c0 :: rest] = wrapStep width [] false [c0 :: rest] := by
    cases b with
    | false => rfl
    | true => exact wrapStep_started_irrel width (c0 :: rest) [] hstrip
  rw [hb]
  by_cases hlen : (c0 :: rest).length ≤ width
  · rw [if_pos hlen]
    have hfits := wrapStep_fits width [] (c0 :: rest) []
      (by simp only [sumLens, List.map, List.sum_cons, List.sum_nil]; omega)
      hstrip
    rw [hfits]
    simp
  · rw [if_neg hlen]
    unfold wrapStep
    simp only [Bool.false_eq_true, if_false, List.length_nil, Nat.sub_zero]
    have hgf : greedyFill width 0 [c0 :: rest] = ([], [c0 :: rest]) := by
      unfold greedyFill
      rw [if_neg (by simp only [List.length_cons] at hlen ⊢; omega)]
    rw [hgf]
    have hgt : (c0 :: rest).length > width := by omega
    simp only [if_pos hgt]
    rw [handleLong_single width hw (c0 :: rest) [] (fun c hcm => (hc c hcm).2) (by omega)]
    have htake : (c0 :: rest).take width = c0 :: rest.take (width - 1) := by
      cases width with
      | zero => omega
      | succ n => simp
    have hcond2 : ¬([(c0 :: rest).take width] ≠ [] ∧
        stripEmpty ([(c0 :: rest).take width].getLastD []) = true) := by
      intro hcd
      have h2 : stripEmpty ((c0 :: rest).take width) = true := hcd.2
      rw [htake, stripEmpty_false_of_head c0 _ hhead] at h2
      exact absurd h2 (by simp)
    rw [if_neg hcond2]
    simp

theorem wrapLoopF_single_word (width : Nat) (hw : 1 ≤ width) :
    ∀ (fuel : Nat) (s : Str) (b : Bool), s ≠ [] →
    (∀ c ∈ s, isPyStripWS c = false ∧ c ≠ '-') → s.length < fuel →
    wrapLoopF width [] fuel b [s] = chunksOf width s := by
  intro fuel
  induction fuel with
  | zero => intro s b _ _ hf; omega
  | succ f ih =>
    intro s b hne hc hf
    obtain ⟨c0, rest, rfl⟩ : ∃ c0 rest, s = c0 :: rest := by
      cases s with
      | nil => exact absurd rfl hne
      | cons a t => exact ⟨a, t, rfl⟩
    have hstep := wrapStep_single_word width hw (c0 :: rest) b (by simp) hc
    by_cases hlen : (c0 :: rest).length ≤ width
    · rw [if_pos hlen] at hstep
      simp only [wrapLoopF, hstep]
      rw [chunksOf_cons width hw (c0 :: rest) (by simp)]
      rw [List.take_of_length_le hlen, List.drop_eq_nil_of_le hlen]
      rw [wrapLoopF_nil]
      rfl
    · rw [if_neg hlen] at hstep
      simp only [wrapLoopF, hstep]
      have hlen2 : width < rest.length + 1 := by
        simp only [List.length_cons] at hlen
        omega
      have hdne : (c0 :: rest).drop width ≠ [] := by
        intro hd
        have hl := congrArg List.length hd
        rw [List.length_drop] at hl
        simp only [List.length_cons, List.length_nil] at hl
        omega
      have hdc : ∀ c ∈ (c0 :: rest).drop width, isPyStripWS c = false ∧ c ≠ '-' :=
        fun c hcm => hc c ((List.drop_sublist width (c0 :: rest)).subset hcm)
      have hdf : ((c0 :: rest).drop width).length < f := by
        rw [List.length_drop]
        simp only [List.length_cons] at hf ⊢
        omega
      rw [ih ((c0 :: rest).drop width) true hdne hdc hdf]
      rw [← chunksOf_cons width hw (c0 :: rest) (by simp)]

theorem splitRuns_single (s : Str) (hne : s ≠ []) (hc : ∀ c ∈ s, isPyWS c = false) :
    splitRuns s = [s] := by
  induction s with
  | nil => exact absurd rfl hne
  | cons c rest ih =>
    cases rest with
    | nil => rfl
    | cons d t =>
      have hr : splitRuns (d :: t) = [d :: t] :=
        ih (by simp) (fun x hx => hc x (List.mem_cons_of_mem c hx))
      show (match splitRuns (d :: t) with
        | [] => [[c]]
        | [] :: rest => [c] :: rest
        | (d :: run) :: rest =>
          if isPyWS c = isPyWS d then (c :: d :: run) :: rest
          else [c] :: (d :: run) :: rest) = [c :: d :: t]
      rw [hr]
      show (if isPyWS c = isPyWS d then (c :: d :: t) :: ([] : List Str)
        else [c] :: (d :: t) :: []) = _
      rw [if_pos (by rw [hc c (by simp), hc d (by simp)])]

/-- C5 counterexample: a single eight-character word wrapped at width
three is not placed alone on its own line; `break_long_words` splits it
into width-sized pieces. -/
theorem C5_long_word_counterexample :
    3 < ("abcdefgh".data).length ∧
    plainWrap 3 [] ("abcdefgh".data) = [("abc".data), ("def".data), ("gh".data)] ∧
    plainWrap 3 [] ("abcdefgh".data) ≠ [("abcdefgh".data)] := by
  decide

/-- C5 amended: in Plain mode with the default empty continuation
indent, a single hyphen-free word longer than the (positive) target
width and free of Unicode whitespace (the set `str.strip()` removes) is
broken into consecutive pieces of exactly the width (the last piece
possibly shorter), not placed alone unsplit. -/
theorem C5_long_word_split (width : Nat) (s : Str) (hw : 1 ≤ width) (hne : s ≠ [])
    (hc : ∀ c ∈ s, isPyStripWS c = false ∧ c ≠ '-') (hlong : width < s.length) :
    plainWrap width [] s = chunksOf width s ∧ plainWrap width [] s ≠ [s] := by
  have hmain : plainWrap width [] s = chunksOf width s := by
    unfold plainWrap
    rw [munge_id s (fun c hcm hwc => by
        rw [isPyWS_false_of_strip c (hc c hcm).1] at hwc; exact absurd hwc (by simp)),
      splitRuns_single s hne (fun c hcm => isPyWS_false_of_strip c (hc c hcm).1),
      List.filter_cons]
    have hsne : s.isEmpty = false := by
      cases s with
      | nil => exact absurd rfl hne
      | cons a t => rfl
    simp only [hsne, Bool.not_false, if_pos, List.filter_nil]
    have hsum : sumLens [s] = s.length := by
      simp [sumLens]
    rw [hsum]
    exact wrapLoopF_single_word width hw (s.length + 1) s false hne hc (by omega)
  refine ⟨hmain, ?_⟩
  rw [hmain, chunksOf_cons width hw s hne]
  intro hcontra
  injection hcontra with h1 h2
  have hlt := congrArg List.length h1
  rw [List.length_take] at hlt
  omega

/-- C5 amended witness at a concrete over-long word. -/
theorem C5_long_word_split_witness :
    (1 ≤ 3 ∧ ("abcdefgh".data) ≠ [] ∧
      (∀ c ∈ ("abcdefgh".data), isPyStripWS c = false ∧ c ≠ '-') ∧
      3 < ("abcdefgh".data).length) ∧
    (plainWrap 3 [] ("abcdefgh".data) = chunksOf 3 ("abcdefgh".data) ∧
      plainWrap 3 [] ("abcdefgh".data) ≠ [("abcdefgh".data)]) :=
  ⟨by decide, C5_long_word_split 3 ("abcdefgh".data) (by decide) (by decide)
    (by decide) (by decide)⟩

/-! ### C7: table shape failures -/

theorem renderRow_nil (cfg : TableCfg) (colw : List Nat) (aligns : Str) (i : Nat) :
    renderRow cfg colw aligns i [] = .error .valueError := by
  unfold renderRow
  cases cfg.fixed_col_widths <;> rfl

theorem mapM_ok_of_all (f : Str → Except PyErr (List Str)) :
    ∀ (l : List Str), (∀ x ∈ l, ∃ y, f x = .ok y) →
    ∃ l', l.mapM f = .ok l' ∧ l'.length = l.length := by
  intro l
  induction l with
  | nil => exact fun _ => ⟨[], rfl, rfl⟩
  | cons a t ih =>
    intro h
    obtain ⟨y, hy⟩ := h a (by simp)
    obtain ⟨l', hl', hlen⟩ := ih (fun x hx => h x (List.mem_cons_of_mem a hx))
    refine ⟨y :: l', ?_, by simp [hlen]⟩
    rw [List.mapM_cons, hy, hl']
    rfl

theorem textwrap_wrap_ok (width : Nat) (sind text : Str) (hw : width ≠ 0) :
    textwrap_wrap width sind text = .ok (plainWrap width sind text) := by
  unfold textwrap_wrap
  rw [if_neg hw]

theorem renderRow_ok_auto (cfg : TableCfg) (colw : List Nat) (aligns : Str) (i : Nat)
    (row : List Str) (hfix : cfg.fixed_col_widths = none) (hmcw : cfg.max_col_width ≠ 0)
    (hne : row ≠ []) : ∃ ls, renderRow cfg colw aligns i row = .ok ls := by
  obtain ⟨l', hl', hlen⟩ := mapM_ok_of_all
    (textwrap_wrap cfg.max_col_width cfg.subsequent_indent) row
    (fun x _ => ⟨plainWrap cfg.max_col_width cfg.subsequent_indent x,
      textwrap_wrap_ok cfg.max_col_width cfg.subsequent_indent x hmcw⟩)
  unfold renderRow
  rw [hfix]
  rw [hl']
  cases l' with
  | nil =>
    exfalso
    apply hne
    cases row with
    | nil => rfl
    | cons a t => simp at hlen
  | cons w0 ws => exact ⟨_, rfl⟩

theorem printRows_ok (cfg : TableCfg) (colw : List Nat) (aligns : Str)
    (hfix : cfg.fixed_col_widths = none) (hmcw : cfg.max_col_width ≠ 0) :
    ∀ (rows : List (List Str)) (i : Nat), (∀ r ∈ rows, r ≠ []) →
    ∃ ls, printRows cfg colw aligns rows i = .ok ls := by
  intro rows
  induction rows with
  | nil => exact fun i _ => ⟨[], rfl⟩
  | cons r rs ih =>
    intro i hne
    obtain ⟨b, hb⟩ := ih (i + 1) (fun x hx => hne x (List.mem_cons_of_mem r hx))
    by_cases hh : cfg.hide_header ∧ i = 0
    · refine ⟨b, ?_⟩
      unfold printRows
      rw [if_pos hh]
      exact hb
    · obtain ⟨a, ha⟩ := renderRow_ok_auto cfg colw aligns i r hfix hmcw (hne r (by simp))
      refine ⟨a ++ b, ?_⟩
      unfold printRows
      rw [if_neg hh, ha, hb]
      rfl

theorem printRows_err_row0 (cfg : TableCfg) (colw : List Nat) (aligns : Str)
    (rest : List (List Str)) (hh : cfg.hide_header = false) :
    printRows cfg colw aligns ([] :: rest) 0 = .error .valueError := by
  unfold printRows
  rw [if_neg (by simp [hh]), renderRow_nil]
  rfl

/-- C7 counterexample: rendering a table with no rows is a failure; the
very first step `len(table[0])` raises an index error. -/
theorem C7_empty_table_counterexample :
    print_table [] defaultCfg = .error .indexError := rfl

/-- C7 amended: a table with no rows raises `IndexError` at
`len(table[0])`; a table whose rows have zero columns (header shown)
raises `ValueError` when the row height is taken as a maximum over no
cells; and with at least one row, at least one column, and automatic
column widths with a positive cap, rendering always succeeds. -/
theorem C7_table_shape_failures :
    (∀ cfg, print_table [] cfg = .error .indexError) ∧
    (∀ cfg (rest : List (List Str)), cfg.hide_header = false →
      print_table ([] :: rest) cfg = .error .valueError) ∧
    (∀ cfg (r0 : List Str) (rest : List (List Str)),
      r0 ≠ [] → cfg.fixed_col_widths = none → cfg.max_col_width ≠ 0 →
      ∃ ls, print_table (r0 :: rest) cfg = .ok ls) := by
  refine ⟨fun cfg => rfl, ?_, ?_⟩
  · intro cfg rest hh
    simp only [print_table, List.length_nil, List.map_cons, List.take_zero,
      List.length_nil, Nat.sub_self, List.replicate_zero, List.append_nil]
    rw [printRows_err_row0 cfg _ _ _ hh]
    rfl
  · intro cfg r0 rest hne hfix hmcw
    simp only [print_table, hfix]
    have hnn : ∀ x ∈ (r0 :: rest).map (fun x =>
        x.take r0.length ++ List.replicate (r0.length - (x.take r0.length).length) ([] : Str)),
        x ≠ [] := by
      intro x hx hxx
      obtain ⟨y, _, rfl⟩ := List.mem_map.mp hx
      have hl := congrArg List.length hxx
      simp only [List.length_append, List.length_take, List.length_replicate,
        List.length_nil] at hl
      have hr0 : 0 < r0.length := List.length_pos.mpr hne
      omega
    obtain ⟨ls, hls⟩ := printRows_ok cfg
      (autoColWidths cfg.max_col_width r0.length ((r0 :: rest).map (fun x =>
        x.take r0.length ++ List.replicate (r0.length - (x.take r0.length).length) ([] : Str))))
      ((cfg.alignments ++ List.replicate (r0.length - cfg.alignments.length) 'L').take r0.length)
      hfix hmcw
      ((r0 :: rest).map (fun x =>
        x.take r0.length ++ List.replicate (r0.length - (x.take r0.length).length) ([] : Str)))
      0 hnn
    refine ⟨(if cfg.leading_newline then [([] : Str)] else []) ++ ls, ?_⟩
    rw [hls]
    rfl

/-- C7 amended witness: a concrete one-cell table renders successfully
under the default configuration. -/
theorem C7_table_shape_failures_witness :
    ([("x".data)] ≠ [] ∧ defaultCfg.fixed_col_widths = none ∧
      defaultCfg.max_col_width ≠ 0 ∧ defaultCfg.hide_header = false) ∧
    print_table [] defaultCfg = .error .indexError ∧
    print_table [[]] defaultCfg = .error .valueError ∧
    (∃ ls, print_table [[("x".data)]] defaultCfg = .ok ls) :=
  ⟨by decide,
    C7_table_shape_failures.1 defaultCfg,
    C7_table_shape_failures.2.1 defaultCfg [] (by decide),
    C7_table_shape_failures.2.2 defaultCfg [("x".data)] [] (by decide) (by decide) (by decide)⟩

/-! ### Escape-free strings survive wrapping and alignment -/

theorem escFree_of_subset (p s : Str) (h : p ⊆ s) (hs : escFree s) : escFree p :=
  fun c hc => hs c (h hc)

theorem escFree_append (p q : Str) (hp : escFree p) (hq : escFree q) :
    escFree (p ++ q) := by
  intro c hc
  rcases List.mem_append.mp hc with h | h
  · exact hp c h
  · exact hq c h

theorem escFree_replicate (n : Nat) (c : Char) (hc : c ≠ esc) :
    escFree (List.replicate n c) := by
  intro d hd
  rw [List.eq_of_mem_replicate hd]
  exact hc

theorem space_ne_esc : ' ' ≠ esc := by decide

theorem escFree_expandtabsGo : ∀ (s : Str) (col : Nat), escFree s →
    escFree (expandtabsGo col s) := by
  intro s
  induction s with
  | nil => intro col _; intro c hc; simp [expandtabsGo] at hc
  | cons c rest ih =>
    intro col hs
    have hc : c ≠ esc := hs c (by simp)
    have hrest : escFree rest := fun d hd => hs d (List.mem_cons_of_mem c hd)
    simp only [expandtabsGo]
    by_cases ht : c = '\t'
    · rw [if_pos ht]
      exact escFree_append _ _ (escFree_replicate _ ' ' space_ne_esc) (ih _ hrest)
    · rw [if_neg ht]
      by_cases hnl : c = '\n' ∨ c = '\x0d'
      · rw [if_pos hnl]
        intro d hd
        rcases List.mem_cons.mp hd with h | h
        · rw [h]; exact hc
        · exact ih 0 hrest d h
      · rw [if_neg hnl]
        intro d hd
        rcases List.mem_cons.mp hd with h | h
        · rw [h]; exact hc
        · exact ih (col + 1) hrest d h

theorem escFree_munge (s : Str) (hs : escFree s) : escFree (munge s) := by
  unfold munge
  intro c hc
  obtain ⟨d, hd, hdc⟩ := List.mem_map.mp hc
  by_cases hw : isPyWS d
  · rw [if_pos hw] at hdc
    rw [← hdc]
    exact space_ne_esc
  · rw [if_neg hw] at hdc
    rw [← hdc]
    exact escFree_expandtabsGo s 0 hs d hd

theorem splitRuns_chars (s : Str) (r : Str) (hr : r ∈ splitRuns s) : r ⊆ s := by
  intro c hc
  have : c ∈ (splitRuns s).flatten := List.mem_flatten.mpr ⟨r, hr, hc⟩
  rwa [splitRuns_flatten s] at this

theorem greedyFill_append (w : Nat) : ∀ (chunks : List Str) (curLen : Nat),
    (greedyFill w curLen chunks).1 ++ (greedyFill w curLen chunks).2 = chunks := by
  intro chunks
  induction chunks with
  | nil => intro curLen; rfl
  | cons c cs ih =>
    intro curLen
    by_cases h : curLen + c.length ≤ w
    · simp only [greedyFill, if_pos h]
      simp [ih (curLen + c.length)]
    · simp only [greedyFill, if_neg h]
      rfl

theorem handleLong_cons (w : Nat) (cur : List Str) (r : Str) (rs : List Str) :
    ∃ e, handleLong w cur (r :: rs) = (cur ++ [r.take e], r.drop e :: rs) :=
  ⟨_, rfl⟩

theorem escFree_flatten (rs : List Str) (h : ∀ x ∈ rs, escFree x) :
    escFree rs.flatten := by
  intro c hc
  obtain ⟨x, hx, hcx⟩ := List.mem_flatten.mp hc
  exact h x hx c hcx

theorem escFree_dropLast (l : List Str) (h : ∀ x ∈ l, escFree x) :
    ∀ x ∈ l.dropLast, escFree x :=
  fun x hx => h x (List.dropLast_subset l hx)

theorem opt_line_escFree (indent : Str) (cur2 : List Str) (hi : escFree indent)
    (hcur : ∀ x ∈ cur2, escFree x) :
    ∀ l, (if cur2.isEmpty then none else some (indent ++ cur2.flatten)) = some l →
      escFree l := by
  intro l hl
  by_cases h : cur2.isEmpty
  · rw [if_pos h] at hl
    cases hl
  · rw [if_neg h] at hl
    injection hl with hl2
    rw [← hl2]
    exact escFree_append _ _ hi (escFree_flatten cur2 hcur)

theorem trailDrop_escFree (cur : List Str) (hcur : ∀ x ∈ cur, escFree x) :
    ∀ x ∈ (if cur ≠ [] ∧ stripEmpty (cur.getLastD []) = true then cur.dropLast else cur),
      escFree x := by
  by_cases h : cur ≠ [] ∧ stripEmpty (cur.getLastD []) = true
  · rw [if_pos h]
    exact escFree_dropLast cur hcur
  · rw [if_neg h]
    exact hcur

theorem wrapStep_escFree (width : Nat) (sind : Str) (started : Bool) (chunks : List Str)
    (hs : escFree sind) (hc : ∀ x ∈ chunks, escFree x) :
    (∀ l, (wrapStep width sind started chunks).1 = some l → escFree l) ∧
    (∀ x ∈ (wrapStep width sind started chunks).2, escFree x) := by
  have hc1 : ∀ x ∈ (match chunks, started with
      | c :: cs, true => if stripEmpty c then cs else c :: cs
      | _, _ => chunks), escFree x := by
    cases chunks with
    | nil => cases started <;> exact hc
    | cons c cs =>
      cases started with
      | false => exact hc
      | true =>
        show ∀ x ∈ (if stripEmpty c then cs else c :: cs), escFree x
        by_cases hsp : stripEmpty c
        · rw [if_pos hsp]
          exact fun x hx => hc x (List.mem_cons_of_mem c hx)
        · rw [if_neg hsp]
          exact hc
  have hind : escFree (if started then sind else []) := by
    cases started with
    | false => intro c hcc; simp at hcc
    | true => simpa using hs
  simp only [wrapStep]
  generalize hI : (if started = true then sind else ([] : Str)) = indent at hind
  generalize hC : (match chunks, started with
      | c :: cs, true => if stripEmpty c = true then cs else c :: cs
      | _, _ => chunks) = chunks1 at hc1
  rcases hg : greedyFill (width - indent.length) 0 chunks1 with ⟨g1, g2⟩
  have hga := greedyFill_append (width - indent.length) chunks1 0
  rw [hg] at hga
  have hg1 : ∀ x ∈ g1, escFree x :=
    fun x hx => hc1 x (by rw [← hga]; exact List.mem_append.mpr (Or.inl hx))
  have hg2 : ∀ x ∈ g2, escFree x :=
    fun x hx => hc1 x (by rw [← hga]; exact List.mem_append.mpr (Or.inr hx))
  cases g2 with
  | nil =>
    refine ⟨opt_line_escFree indent _ hind (trailDrop_escFree g1 hg1), ?_⟩
    intro x hx
    simp at hx
  | cons r rs =>
    have hr : escFree r := hg2 r (by simp)
    have hrs : ∀ x ∈ rs, escFree x := fun x hx => hg2 x (List.mem_cons_of_mem r hx)
    simp only []
    by_cases hlong : r.length > width - indent.length
    · rw [if_pos hlong]
      obtain ⟨e, he⟩ := handleLong_cons (width - indent.length) g1 r rs
      rw [he]
      have hcur : ∀ x ∈ g1 ++ [r.take e], escFree x := by
        intro x hx
        rcases List.mem_append.mp hx with h | h
        · exact hg1 x h
        · rw [List.mem_singleton.mp h]
          exact escFree_of_subset _ r (List.take_subset e r) hr
      refine ⟨opt_line_escFree indent _ hind (trailDrop_escFree _ hcur), ?_⟩
      intro x hx
      rcases List.mem_cons.mp hx with h | h
      · rw [h]
        exact escFree_of_subset _ r (List.drop_subset e r) hr
      · exact hrs x h
    · rw [if_neg hlong]
      exact ⟨opt_line_escFree indent _ hind (trailDrop_escFree g1 hg1), hg2⟩

theorem wrapLoopF_escFree (width : Nat) (sind : Str) (hs : escFree sind) :
    ∀ (fuel : Nat) (b : Bool) (chunks : List Str), (∀ x ∈ chunks, escFree x) →
    ∀ l ∈ wrapLoopF width sind fuel b chunks, escFree l := by
  intro fuel
  induction fuel with
  | zero => intro b chunks _ l hl; simp [wrapLoopF] at hl
  | succ f ih =>
    intro b chunks hc l hl
    cases chunks with
    | nil => simp [wrapLoopF] at hl
    | cons c cs =>
      have hws := wrapStep_escFree width sind b (c :: cs) hs hc
      revert hl
      show l ∈ (match wrapStep width sind b (c :: cs) with
        | (some l2, rest) => l2 :: wrapLoopF width sind f true rest
        | (none, rest) => wrapLoopF width sind f b rest) → escFree l
      rcases hstep : wrapStep width sind b (c :: cs) with ⟨l?, rest⟩
      rw [hstep] at hws
      cases l? with
      | some l2 =>
        intro hl
        rcases List.mem_cons.mp hl with h | h
        · rw [h]
          exact hws.1 l2 rfl
        · exact ih true rest hws.2 l h
      | none =>
        intro hl
        exact ih b rest hws.2 l hl

theorem plainWrap_escFree (width : Nat) (sind text : Str) (hs : escFree sind)
    (ht : escFree text) : ∀ l ∈ plainWrap width sind text, escFree l := by
  intro l hl
  unfold plainWrap at hl
  refine wrapLoopF_escFree width sind hs _ false _ ?_ l hl
  intro x hx
  have hx2 : x ∈ splitRuns (munge text) := List.mem_of_mem_filter hx
  exact escFree_of_subset x (munge text) (splitRuns_chars (munge text) x hx2)
    (escFree_munge text ht)

theorem contains_underline_false_of_escFree (s : Str) (hs : escFree s) :
    containsSub UNDERLINE s = false := by
  induction s with
  | nil => rfl
  | cons c rest ih =>
    have hc : c ≠ esc := hs c (by simp)
    show (startsWith UNDERLINE (c :: rest) || containsSub UNDERLINE rest) = false
    have h1 : startsWith UNDERLINE (c :: rest) = false := by
      show (decide (esc = c) && startsWith [ '[', '4', 'm'] rest) = false
      have : decide (esc = c) = false := by
        simp [decide_eq_false_iff_not]
        exact fun h => hc h.symm
      rw [this]
      rfl
    rw [h1, ih (fun d hd => hs d (List.mem_cons_of_mem c hd))]
    rfl

/-! ### C4: the row extra text lands on every physical line -/

theorem mem_intersperse (sep : Str) : ∀ (l : List Str) (x : Str),
    x ∈ List.intersperse sep l → x = sep ∨ x ∈ l := by
  intro l
  induction l with
  | nil => intro x hx; simp at hx
  | cons a t ih =>
    intro x hx
    cases t with
    | nil =>
      simp only [List.intersperse_singleton] at hx
      exact Or.inr (by simpa using hx)
    | cons b t2 =>
      rw [List.intersperse_cons_cons] at hx
      rcases List.mem_cons.mp hx with h | h
      · exact Or.inr (by simp [h])
      · rcases List.mem_cons.mp h with h2 | h2
        · exact Or.inl h2
        · rcases ih x h2 with h3 | h3
          · exact Or.inl h3
          · exact Or.inr (List.mem_cons_of_mem a h3)

theorem escFree_intercalate (sep : Str) (l : List Str) (hsep : escFree sep)
    (hl : ∀ x ∈ l, escFree x) : escFree (List.intercalate sep l) := by
  unfold List.intercalate
  apply escFree_flatten
  intro x hx
  rcases mem_intersperse sep l x hx with h | h
  · rw [h]; exact hsep
  · exact hl x h

theorem zip3With_mem (f : Str → Nat → Char → Str) :
    ∀ (as : List Str) (bs : List Nat) (cs : List Char) (z : Str),
    z ∈ zip3With f as bs cs → ∃ a ∈ as, ∃ b ∈ bs, ∃ c ∈ cs, z = f a b c := by
  intro as
  induction as with
  | nil => intro bs cs z hz; simp [zip3With] at hz
  | cons a as2 ih =>
    intro bs cs z hz
    cases bs with
    | nil => simp [zip3With] at hz
    | cons b bs2 =>
      cases cs with
      | nil => simp [zip3With] at hz
      | cons c cs2 =>
        rcases List.mem_cons.mp hz with h | h
        · exact ⟨a, by simp, b, by simp, c, by simp, h⟩
        · obtain ⟨a2, ha, b2, hb, c2, hcc, hz2⟩ := ih bs2 cs2 z h
          exact ⟨a2, List.mem_cons_of_mem a ha, b2, List.mem_cons_of_mem b hb,
            c2, List.mem_cons_of_mem c hcc, hz2⟩

theorem alignCell_escFree (cfg : TableCfg) (i : Nat) (v : Str) (cw : Nat) (a : Char)
    (hv : escFree v) : escFree (alignCell cfg i v cw a) := by
  unfold alignCell
  have hpad : ∀ n, escFree (List.replicate n ' ') :=
    fun n => escFree_replicate n ' ' space_ne_esc
  by_cases h1 : a = 'L' ∨ (i = 0 ∧ cfg.left_align_header)
  · rw [if_pos h1]
    exact escFree_append _ _ hv (hpad _)
  · rw [if_neg h1]
    by_cases h2 : a = 'C'
    · rw [if_pos h2]
      exact escFree_append _ _ (escFree_append _ _ (hpad _) hv) (hpad _)
    · rw [if_neg h2]
      exact escFree_append _ _ (hpad _) hv

theorem getD_escFree (x : List Str) (j : Nat) (h : ∀ l ∈ x, escFree l) :
    escFree (x.getD j []) := by
  by_cases hj : j < x.length
  · rw [List.getD_eq_getElem x [] hj]
    exact h _ (List.getElem_mem hj)
  · rw [List.getD_eq_default _ _ (by omega)]
    intro c hc
    simp at hc

theorem range_map_getD (f : Nat → Str) (n j : Nat) (h : j < n) :
    ((List.range n).map f).getD j [] = f j := by
  rw [List.getD_eq_getElem _ _ (by simpa using h)]
  simp

theorem isPrefixOf_append_self (a b : Str) : a.isPrefixOf (a ++ b) = true := by
  induction a with
  | nil => simp [List.isPrefixOf]
  | cons c t ih => simp [List.isPrefixOf, ih]

theorem isSuffixOf_append_self (p l : Str) : l.isSuffixOf (p ++ l) = true := by
  unfold List.isSuffixOf
  rw [List.reverse_append]
  exact isPrefixOf_append_self l.reverse p.reverse

theorem mapM_ok_mem (f : α → Except PyErr (List Str)) :
    ∀ (l : List α) (l' : List (List Str)), l.mapM f = .ok l' →
    ∀ y ∈ l', ∃ x ∈ l, f x = .ok y := by
  intro l
  induction l with
  | nil =>
    intro l' h y hy
    have : l' = [] := by
      have h2 : (Except.ok [] : Except PyErr (List (List Str))) = .ok l' := h
      injection h2 with h3
      exact h3.symm
    rw [this] at hy
    simp at hy
  | cons a t ih =>
    intro l' h y hy
    rw [List.mapM_cons] at h
    rcases hfa : f a with e | b
    · rw [hfa] at h
      cases h
    · rw [hfa] at h
      rcases hmt : t.mapM f with e2 | bs
      · rw [hmt] at h
        cases h
      · rw [hmt] at h
        have h2 : (Except.ok (b :: bs) : Except PyErr (List (List Str))) = .ok l' := h
        injection h2 with h3
        rw [← h3] at hy
        rcases List.mem_cons.mp hy with h4 | h4
        · exact ⟨a, by simp, by rw [hfa, h4]⟩
        · obtain ⟨x, hx, hfx⟩ := ih bs hmt y h4
          exact ⟨x, List.mem_cons_of_mem a hx, hfx⟩

theorem textwrap_wrap_ok_inv (width : Nat) (sind t : Str) (y : List Str)
    (h : textwrap_wrap width sind t = .ok y) : y = plainWrap width sind t := by
  unfold textwrap_wrap at h
  by_cases hw : width = 0
  · rw [if_pos hw] at h
    cases h
  · rw [if_neg hw] at h
    injection h with h2
    exact h2.symm

theorem renderRow_jp (cfg : TableCfg) (colw : List Nat) (aligns : Str) (i : Nat)
    (wrapped : List (List Str)) (lines : List Str)
    (hok : (match wrapped with
        | [] => (Except.error PyErr.valueError : Except PyErr (List Str))
        | w0 :: ws =>
          Except.ok ((List.range (ws.foldl (fun (m : Nat) (x : List Str) => max m x.length)
              w0.length)).map
            (rowLine cfg colw aligns i
              (ws.foldl (fun (m : Nat) (x : List Str) => max m x.length) w0.length)
              (if i = 0 ∧ cfg.bottom_align_header then
                (w0 :: ws).map (fun (x : List Str) => List.replicate
                  ((ws.foldl (fun (m : Nat) (x : List Str) => max m x.length) w0.length)
                    - x.length) ([] : Str) ++ x)
              else w0 :: ws)))) = .ok lines) :
    ∃ row_rows wrapped2, lines = (List.range row_rows).map
        (rowLine cfg colw aligns i row_rows wrapped2) ∧
      ∀ w2 ∈ wrapped2, ∀ l ∈ w2, l = [] ∨ ∃ y ∈ wrapped, l ∈ y := by
  cases wrapped with
  | nil => cases hok
  | cons w0 ws =>
    injection hok with h3
    refine ⟨_, _, h3.symm, ?_⟩
    intro w2 hw2 l hl2
    by_cases hba : i = 0 ∧ cfg.bottom_align_header
    · rw [if_pos hba] at hw2
      obtain ⟨x, hx, rfl⟩ := List.mem_map.mp hw2
      rcases List.mem_append.mp hl2 with h | h
      · exact Or.inl (List.eq_of_mem_replicate h)
      · exact Or.inr ⟨x, hx, h⟩
    · rw [if_neg hba] at hw2
      exact Or.inr ⟨w2, hw2, hl2⟩

theorem renderRow_shape (cfg : TableCfg) (colw : List Nat) (aligns : Str) (i : Nat)
    (row : List Str) (lines : List Str)
    (hok : renderRow cfg colw aligns i row = .ok lines) :
    ∃ row_rows wrapped2, lines = (List.range row_rows).map
        (rowLine cfg colw aligns i row_rows wrapped2) ∧
      (escFree cfg.subsequent_indent → (∀ x ∈ row, escFree x) →
        ∀ w2 ∈ wrapped2, ∀ l ∈ w2, escFree l) := by
  unfold renderRow at hok
  rcases hfix : cfg.fixed_col_widths with _ | fws <;> rw [hfix] at hok <;>
    simp only [] at hok
  · rcases hm : row.mapM (textwrap_wrap cfg.max_col_width cfg.subsequent_indent)
      with e | wrapped
    · rw [hm] at hok
      cases hok
    · rw [hm] at hok
      obtain ⟨rr, w2s, hl, hmem⟩ := renderRow_jp cfg colw aligns i wrapped lines hok
      refine ⟨rr, w2s, hl, ?_⟩
      intro hsind hcells w2 hw2 l hl2
      rcases hmem w2 hw2 l hl2 with h | ⟨y, hy, hly⟩
      · rw [h]
        intro c hc
        simp at hc
      · obtain ⟨x, hx, hfx⟩ := mapM_ok_mem _ row wrapped hm y hy
        rw [textwrap_wrap_ok_inv _ _ _ _ hfx] at hly
        exact plainWrap_escFree _ _ _ hsind (hcells x hx) l hly
  · rcases hm : (row.zip fws).mapM (fun p => textwrap_wrap p.2 cfg.subsequent_indent p.1)
      with e | wrapped
    · rw [hm] at hok
      cases hok
    · rw [hm] at hok
      obtain ⟨rr, w2s, hl, hmem⟩ := renderRow_jp cfg colw aligns i wrapped lines hok
      refine ⟨rr, w2s, hl, ?_⟩
      intro hsind hcells w2 hw2 l hl2
      rcases hmem w2 hw2 l hl2 with h | ⟨y, hy, hly⟩
      · rw [h]
        intro c hc
        simp at hc
      · obtain ⟨p, hp, hfp⟩ := mapM_ok_mem _ (row.zip fws) wrapped hm y hy
        rw [textwrap_wrap_ok_inv _ _ _ _ hfp] at hly
        exact plainWrap_escFree _ _ _ hsind (hcells p.1 (List.of_mem_zip hp).1) l hly

/-- C4 counterexample: a row that wraps into two physical lines has its
extra text appended to both of them, not only to the last one. -/
theorem C4_extra_counterexample :
    print_table [[("aa bb".data)]]
      ⟨[], 2, 3, 0, [], [], [(0, ("ZZ".data))], false, [], [], false, none, true, true⟩ =
      .ok [("aaZZ".data), ("bbZZ".data)] ∧
    ("ZZ".data).isSuffixOf ("aaZZ".data) = true := by
  decide

/-- C4 amended: when the row carries extra text and the styling knobs
that would rewrite the line afterwards are neutral for this row (no
substring recolouring, no row colour, no header format on row zero, and
escape-free cells, continuation indent and extra text), the extra text is
appended verbatim to EVERY physical line of the row, not only to the last
one. -/
theorem C4_extra_on_every_line (cfg : TableCfg) (colw : List Nat) (aligns : Str)
    (i : Nat) (row : List Str) (lines : List Str) (extra : Str)
    (hcells : ∀ x ∈ row, escFree x) (hsind : escFree cfg.subsequent_indent)
    (hextra : cfg.row_extra_text.lookup i = some extra) (hexf : escFree extra)
    (hsub : cfg.sub_colour = []) (hrc : cfg.row_colour.lookup i = none)
    (hhf : i = 0 → cfg.header_format = [])
    (hok : renderRow cfg colw aligns i row = .ok lines) :
    ∀ j < lines.length, extra.isSuffixOf (lines.getD j []) = true := by
  obtain ⟨row_rows, wrapped2, hlines, hesc⟩ :=
    renderRow_shape cfg colw aligns i row lines hok
  intro j hj
  have hjr : j < row_rows := by
    rw [hlines] at hj
    simpa using hj
  rw [hlines, range_map_getD _ _ _ hjr]
  have hw2 := hesc hsind hcells
  unfold rowLine
  rw [hextra]
  simp only []
  have hbase : escFree (List.intercalate (List.replicate cfg.col_separation ' ')
      (zip3With (alignCell cfg i) (wrapped2.map (fun x => x.getD j [])) colw aligns)) := by
    apply escFree_intercalate _ _ (escFree_replicate _ ' ' space_ne_esc)
    intro z hz
    obtain ⟨a, ha, b, hb, c, hcm, rfl⟩ := zip3With_mem _ _ _ _ z hz
    obtain ⟨w2, hw2m, rfl⟩ := List.mem_map.mp ha
    exact alignCell_escFree cfg i _ b c (getD_escFree w2 j (hw2 w2 hw2m))
  have hs2cond : ¬(i = 0 ∧ ¬cfg.header_format.isEmpty = true) := by
    intro hcd
    have hf := hhf hcd.1
    rw [hf] at hcd
    exact hcd.2 rfl
  rw [if_neg hs2cond, hrc]
  simp only [hsub, List.foldl_nil]
  have hbe : escFree (List.intercalate (List.replicate cfg.col_separation ' ')
      (zip3With (alignCell cfg i) (wrapped2.map (fun x => x.getD j [])) colw aligns) ++ extra) :=
    escFree_append _ _ hbase hexf
  have hnc : containsSub UNDERLINE (List.intercalate (List.replicate cfg.col_separation ' ')
      (zip3With (alignCell cfg i) (wrapped2.map (fun x => x.getD j [])) colw aligns) ++ extra)
      = false := contains_underline_false_of_escFree _ hbe
  rw [if_neg (by intro hcd; rw [hnc] at hcd; exact absurd hcd.2 (by simp))]
  rw [← List.append_assoc]
  exact isSuffixOf_append_self _ extra

/-- C4 amended witness: the concrete two-line row from the counterexample
satisfies the hypotheses, and the theorem puts the extra text at the end
of both physical lines. -/
theorem C4_extra_on_every_line_witness :
    ((∀ x ∈ [("aa bb".data)], escFree x) ∧
      ([(0, ("ZZ".data))] : List (Nat × Str)).lookup 0 = some ("ZZ".data) ∧
      renderRow ⟨[], 2, 3, 0, [], [], [(0, ("ZZ".data))], false, [], [], false, none, true, true⟩
        [2] ("L".data) 0 [("aa bb".data)] = .ok [("aaZZ".data), ("bbZZ".data)]) ∧
    (∀ j < ([("aaZZ".data), ("bbZZ".data)] : List Str).length,
      ("ZZ".data).isSuffixOf (([("aaZZ".data), ("bbZZ".data)] : List Str).getD j []) = true) :=
  ⟨⟨by decide, by decide, by decide⟩,
    C4_extra_on_every_line
      ⟨[], 2, 3, 0, [], [], [(0, ("ZZ".data))], false, [], [], false, none, true, true⟩
      [2] ("L".data) 0 [("aa bb".data)] [("aaZZ".data), ("bbZZ".data)] ("ZZ".data)
      (by decide) (by decide) (by decide) (by decide) (by decide) (by decide)
      (fun _ => rfl) (by decide)⟩

/-! ### C2: single-pass underline stripping on code-sequence lines -/

theorem pyReplaceGo_fuel (pat repl : Str) (_hp : pat ≠ []) :
    ∀ (f1 f2 : Nat) (s : Str), s.length ≤ f1 → s.length ≤ f2 →
    pyReplaceGo pat repl f1 s = pyReplaceGo pat repl f2 s := by
  intro f1
  induction f1 with
  | zero =>
    intro f2 s h1 _
    have hs : s = [] := List.eq_nil_of_length_eq_zero (Nat.le_zero.mp h1)
    subst hs
    cases f2 <;> rfl
  | succ f ih =>
    intro f2 s h1 h2
    cases s with
    | nil => cases f2 <;> rfl
    | cons c rest =>
      cases f2 with
      | zero => exact absurd h2 (by simp)
      | succ f2' =>
        simp only [List.length_cons] at h1 h2
        have hr : rest.length ≤ f := by omega
        have hr2 : rest.length ≤ f2' := by omega
        have hd : ∀ k, (rest.drop k).length ≤ rest.length := by
          intro k
          rw [List.length_drop]
          omega
        simp only [pyReplaceGo]
        by_cases hsw : startsWith pat (c :: rest) = true
        · rw [if_pos hsw, if_pos hsw,
            ih f2' _ (le_trans (hd _) hr) (le_trans (hd _) hr2)]
        · rw [if_neg hsw, if_neg hsw, ih f2' rest hr hr2]

theorem removeAll_nil : removeAll UNDERLINE [] = [] := rfl

theorem removeAll_cons_not_starts (c : Char) (s : Str)
    (h : startsWith UNDERLINE (c :: s) = false) :
    removeAll UNDERLINE (c :: s) = c :: removeAll UNDERLINE s := by
  show pyReplace (c :: s) UNDERLINE [] = c :: pyReplace s UNDERLINE []
  unfold pyReplace
  rw [if_neg (by decide), if_neg (by decide)]
  show pyReplaceGo UNDERLINE [] (s.length + 1) (c :: s) = _
  simp only [pyReplaceGo, h]
  rfl

theorem removeAll_starts (c : Char) (s : Str)
    (h : startsWith UNDERLINE (c :: s) = true) :
    removeAll UNDERLINE (c :: s) = removeAll UNDERLINE (s.drop 3) := by
  show pyReplace (c :: s) UNDERLINE [] = pyReplace (s.drop 3) UNDERLINE []
  unfold pyReplace
  rw [if_neg (by decide), if_neg (by decide)]
  show pyReplaceGo UNDERLINE [] (s.length + 1) (c :: s) = _
  simp only [pyReplaceGo, h, if_true]
  show pyReplaceGo UNDERLINE [] s.length (s.drop 3) = _
  exact pyReplaceGo_fuel UNDERLINE [] (by decide) s.length (s.drop 3).length (s.drop 3)
    (by rw [List.length_drop]; omega) (Nat.le_refl _)

theorem startsWith_UL_head_ne (c : Char) (hc : c ≠ esc) (s : Str) :
    startsWith UNDERLINE (c :: s) = false := by
  show (decide (esc = c) && startsWith ['[', '4', 'm'] s) = false
  have : decide (esc = c) = false := decide_eq_false (fun h => hc h.symm)
  rw [this]
  rfl

theorem startsWith_UL_third_ne (x : Char) (hx : x ≠ '4') (s : Str) :
    startsWith UNDERLINE (esc :: '[' :: x :: s) = false := by
  show (decide (esc = esc) && (decide ('[' = '[') && (decide ('4' = x) &&
    startsWith ['m'] s))) = false
  have h4 : decide ('4' = x) = false := decide_eq_false (fun h => hx h.symm)
  rw [h4]
  simp

theorem startsWith_UL_self (q : Str) :
    startsWith UNDERLINE (UNDERLINE ++ q) = true := by
  show (decide (esc = esc) && (decide ('[' = '[') && (decide ('4' = '4') &&
    (decide ('m' = 'm') && startsWith [] q)))) = true
  simp [startsWith]

theorem contains_cons_not_starts (c : Char) (s : Str)
    (h : startsWith UNDERLINE (c :: s) = false) :
    containsSub UNDERLINE (c :: s) = containsSub UNDERLINE s := by
  show (startsWith UNDERLINE (c :: s) || containsSub UNDERLINE s) = _
  rw [h]
  simp

theorem removeAll_append_escFree (p q : Str) (hp : escFree p) :
    removeAll UNDERLINE (p ++ q) = p ++ removeAll UNDERLINE q := by
  induction p with
  | nil => rfl
  | cons c rest ih =>
    have hc : c ≠ esc := hp c (by simp)
    rw [List.cons_append,
      removeAll_cons_not_starts c _ (startsWith_UL_head_ne c hc _),
      ih (fun d hd => hp d (List.mem_cons_of_mem c hd))]
    rfl

theorem contains_append_escFree (p q : Str) (hp : escFree p) :
    containsSub UNDERLINE (p ++ q) = containsSub UNDERLINE q := by
  induction p with
  | nil => rfl
  | cons c rest ih =>
    have hc : c ≠ esc := hp c (by simp)
    rw [List.cons_append,
      contains_cons_not_starts c _ (startsWith_UL_head_ne c hc _),
      ih (fun d hd => hp d (List.mem_cons_of_mem c hd))]

theorem removeAll_skip_code (x : Char) (tail q : Str) (hx : x ≠ '4') (hxe : x ≠ esc)
    (ht : escFree tail)
    (ih : containsSub UNDERLINE (removeAll UNDERLINE q) = false) :
    containsSub UNDERLINE (removeAll UNDERLINE ((esc :: '[' :: x :: tail) ++ q)) = false := by
  have hbracket : ('[' : Char) ≠ esc := by decide
  have hpe : escFree ('[' :: x :: tail) := by
    intro d hd
    rcases List.mem_cons.mp hd with h | h
    · rw [h]; exact hbracket
    · rcases List.mem_cons.mp h with h2 | h2
      · rw [h2]; exact hxe
      · exact ht d h2
  rw [show (esc :: '[' :: x :: tail) ++ q = esc :: (('[' :: x :: tail) ++ q) from rfl]
  rw [removeAll_cons_not_starts esc _ (by
    rw [show ('[' :: x :: tail) ++ q = '[' :: x :: (tail ++ q) from rfl]
    exact startsWith_UL_third_ne x hx (tail ++ q))]
  rw [removeAll_append_escFree _ q hpe]
  rw [contains_cons_not_starts esc _ (by
    rw [show ('[' :: x :: tail) ++ removeAll UNDERLINE q =
      '[' :: x :: (tail ++ removeAll UNDERLINE q) from rfl]
    exact startsWith_UL_third_ne x hx _)]
  rw [contains_append_escFree _ _ hpe]
  exact ih

theorem removeAll_codeSeq (s : Str) (hs : CodeSeq s) :
    containsSub UNDERLINE (removeAll UNDERLINE s) = false := by
  induction hs with
  | nil => rfl
  | plainCons c q hc _ ih =>
    rw [removeAll_cons_not_starts c q (startsWith_UL_head_ne c hc q),
      contains_cons_not_starts c _ (startsWith_UL_head_ne c hc _)]
    exact ih
  | codeCons a q ha _ ih =>
    simp only [styleAtoms, List.mem_cons, List.not_mem_nil, or_false] at ha
    rcases ha with rfl | rfl | rfl | rfl | rfl | rfl | rfl | ha
    · exact removeAll_skip_code '0' (['m']) q (by decide) (by decide) (by decide) ih
    · exact removeAll_skip_code '1' (['m']) q (by decide) (by decide) (by decide) ih
    · show containsSub UNDERLINE (removeAll UNDERLINE (esc :: '[' :: '4' :: 'm' :: q)) = false
      rw [removeAll_starts esc ('[' :: '4' :: 'm' :: q) (startsWith_UL_self q)]
      exact ih
    · exact removeAll_skip_code '3' (['1', 'm']) q (by decide) (by decide) (by decide) ih
    · exact removeAll_skip_code '3' (['2', 'm']) q (by decide) (by decide) (by decide) ih
    · exact removeAll_skip_code '3' (['5', 'm']) q (by decide) (by decide) (by decide) ih
    · exact removeAll_skip_code '9' (['3', 'm']) q (by decide) (by decide) (by decide) ih
    · rw [ha]
      exact removeAll_skip_code '2' (['m']) q (by decide) (by decide) (by decide) ih

theorem CodeSeq_append (p q : Str) (hp : CodeSeq p) (hq : CodeSeq q) :
    CodeSeq (p ++ q) := by
  induction hp with
  | nil => exact hq
  | plainCons c r hc _ ih => exact CodeSeq.plainCons c (r ++ q) hc ih
  | codeCons a r ha _ ih =>
    rw [List.append_assoc]
    exact CodeSeq.codeCons a (r ++ q) ha ih

theorem CodeSeq_of_escFree (s : Str) (hs : escFree s) : CodeSeq s := by
  induction s with
  | nil => exact CodeSeq.nil
  | cons c rest ih =>
    exact CodeSeq.plainCons c rest (hs c (by simp))
      (ih (fun d hd => hs d (List.mem_cons_of_mem c hd)))

theorem colourCode_cases (m : Str) : colourCode m = RED ∨ colourCode m = GREEN ∨
    colourCode m = YELLOW ∨ colourCode m = DIM ∨ colourCode m = [] := by
  unfold colourCode
  repeat' split
  · exact Or.inl rfl
  · exact Or.inr (Or.inl rfl)
  · exact Or.inr (Or.inr (Or.inl rfl))
  · exact Or.inr (Or.inr (Or.inr (Or.inl rfl)))
  · exact Or.inr (Or.inr (Or.inr (Or.inr rfl)))

theorem colour_codeSeq (t n : Str) (ht : CodeSeq t) : CodeSeq (colour t n) := by
  have hpre : ∀ (a : Str), a ∈ styleAtoms → ∀ q, CodeSeq q → CodeSeq (a ++ q) :=
    fun a ha q hq => CodeSeq.codeCons a q ha hq
  have hend : CodeSeq (t ++ END_FORMATTING) := by
    have h1 : CodeSeq END_FORMATTING := by
      have h2 := CodeSeq.codeCons END_FORMATTING [] (by simp [styleAtoms]) CodeSeq.nil
      simpa using h2
    exact CodeSeq_append t END_FORMATTING ht h1
  unfold colour
  rcases colourCode_cases (lowerStr (pyReplace (pyReplace (pyReplace
      (pyReplace n ("bold".data) []) ("underline".data) []) ("_".data) [])
      (" ".data) [])) with hcc | hcc | hcc | hcc | hcc <;>
    simp only [hcc] <;>
    repeat' split
  all_goals first
    | exact ht
    | (try simp only [List.append_assoc, List.nil_append]
       repeat first
         | exact hend
         | refine hpre _ (by simp [styleAtoms]) _ ?_)

theorem lookup_mem_snd (l : List (Nat × Str)) (k : Nat) (v : Str)
    (h : l.lookup k = some v) : ∃ p ∈ l, p.2 = v := by
  induction l with
  | nil => cases h
  | cons a t ih =>
    rw [List.lookup_cons] at h
    by_cases hk : (k == a.1) = true
    · rw [hk] at h
      have h2 : some a.2 = some v := h
      injection h2 with h3
      exact ⟨a, by simp, h3⟩
    · rw [Bool.not_eq_true] at hk
      rw [hk] at h
      obtain ⟨p, hp, hv⟩ := ih h
      exact ⟨p, List.mem_cons_of_mem a hp, hv⟩

/-- C2 counterexample: a crafted cell containing a split underline
introducer recombines into a live underline code after the single-pass
strip, so a non-final physical line of the wrapped header row still
contains the underline escape in the emitted output. -/
theorem C2_underline_counterexample :
    print_table [[[esc, '[', '4', esc, '[', '4', 'm', 'm'], ("aa bb".data)]]
      ⟨[], 30, 3, 0, [], [], [], false, [], ("underline".data), false,
        some [10, 2], true, false⟩ =
      .ok [UNDERLINE ++ ("     aa".data) ++ END_FORMATTING,
        UNDERLINE ++ ("             bb".data) ++ END_FORMATTING] ∧
    containsSub UNDERLINE (UNDERLINE ++ ("     aa".data) ++ END_FORMATTING) = true := by
  decide

/-- C2 amended: when every cell of the row, the continuation indent and
all extra texts are escape free and no substring recolouring is
configured, no physical line of the row other than the last contains the
underline escape in the emitted output; arbitrary header and row styling
is allowed.  Cells that smuggle in raw escape bytes can defeat the
single-pass strip, as the counterexample shows. -/
theorem C2_underline_only_on_last (cfg : TableCfg) (colw : List Nat) (aligns : Str)
    (i : Nat) (row : List Str) (lines : List Str)
    (hcells : ∀ x ∈ row, escFree x) (hsind : escFree cfg.subsequent_indent)
    (hextra : ∀ p ∈ cfg.row_extra_text, escFree p.2)
    (hsub : cfg.sub_colour = [])
    (hok : renderRow cfg colw aligns i row = .ok lines) :
    ∀ j, j + 1 < lines.length → containsSub UNDERLINE (lines.getD j []) = false := by
  obtain ⟨row_rows, wrapped2, hlines, hesc⟩ :=
    renderRow_shape cfg colw aligns i row lines hok
  intro j hj
  have hlen : lines.length = row_rows := by
    rw [hlines]
    simp
  have hjr : j < row_rows := by omega
  rw [hlines, range_map_getD _ _ _ hjr]
  have hw2 := hesc hsind hcells
  unfold rowLine
  simp only []
  have hbase : escFree (List.intercalate (List.replicate cfg.col_separation ' ')
      (zip3With (alignCell cfg i) (wrapped2.map (fun x => x.getD j [])) colw aligns)) := by
    apply escFree_intercalate _ _ (escFree_replicate _ ' ' space_ne_esc)
    intro z hz
    obtain ⟨a, ha, b, hb, c, hcm, rfl⟩ := zip3With_mem _ _ _ _ z hz
    obtain ⟨w2, hw2m, rfl⟩ := List.mem_map.mp ha
    exact alignCell_escFree cfg i _ b c (getD_escFree w2 j (hw2 w2 hw2m))
  have hs1 : CodeSeq (match cfg.row_extra_text.lookup i with
      | some extra => List.intercalate (List.replicate cfg.col_separation ' ')
          (zip3With (alignCell cfg i) (wrapped2.map (fun x => x.getD j [])) colw aligns) ++ extra
      | none => List.intercalate (List.replicate cfg.col_separation ' ')
          (zip3With (alignCell cfg i) (wrapped2.map (fun x => x.getD j [])) colw aligns)) := by
    cases hlk : cfg.row_extra_text.lookup i with
    | none => exact CodeSeq_of_escFree _ hbase
    | some extra =>
      obtain ⟨p, hp, hv⟩ := lookup_mem_snd cfg.row_extra_text i extra hlk
      exact CodeSeq_of_escFree _ (escFree_append _ _ hbase (hv ▸ hextra p hp))
  generalize hS1 : (match cfg.row_extra_text.lookup i with
      | some extra => List.intercalate (List.replicate cfg.col_separation ' ')
          (zip3With (alignCell cfg i) (wrapped2.map (fun (x : List Str) => x.getD j []))
            colw aligns) ++ extra
      | none => List.intercalate (List.replicate cfg.col_separation ' ')
          (zip3With (alignCell cfg i) (wrapped2.map (fun (x : List Str) => x.getD j []))
            colw aligns)) = s1
  rw [hS1] at hs1
  have hs2 : CodeSeq (if i = 0 ∧ ¬cfg.header_format.isEmpty = true then
      colour s1 cfg.header_format else s1) := by
    by_cases hc : i = 0 ∧ ¬cfg.header_format.isEmpty = true
    · rw [if_pos hc]
      exact colour_codeSeq s1 cfg.header_format hs1
    · rw [if_neg hc]
      exact hs1
  generalize hS2 : (if i = 0 ∧ ¬cfg.header_format.isEmpty = true then
      colour s1 cfg.header_format else s1) = s2
  rw [hS2] at hs2
  have hs3 : CodeSeq (match cfg.row_colour.lookup i with
      | some rc => colour s2 rc
      | none => s2) := by
    cases cfg.row_colour.lookup i with
    | none => exact hs2
    | some rc => exact colour_codeSeq s2 rc hs2
  generalize hS3 : (match cfg.row_colour.lookup i with
      | some rc => colour s2 rc
      | none => s2) = s3
  rw [hS3] at hs3
  simp only [hsub, List.foldl_nil]
  have hind : escFree (List.replicate cfg.indent ' ') :=
    escFree_replicate _ ' ' space_ne_esc
  rw [contains_append_escFree _ _ hind]
  by_cases hct : containsSub UNDERLINE s3 = true
  · rw [if_pos ⟨by omega, hct⟩]
    exact removeAll_codeSeq s3 hs3
  · rw [if_neg (fun hcd => hct hcd.2)]
    simpa using hct

/-- C2 amended witness: an underlined header over a two-line row keeps
the underline code only on the final physical line. -/
theorem C2_underline_only_on_last_witness :
    ((∀ x ∈ [("aa bb".data)], escFree x) ∧
      renderRow ⟨[], 2, 3, 0, [], [], [], false, [], ("underline".data), false,
          none, true, false⟩ [2] ("L".data) 0 [("aa bb".data)] =
        .ok [("aa".data) ++ END_FORMATTING, UNDERLINE ++ ("bb".data) ++ END_FORMATTING]) ∧
    (∀ j, j + 1 < ([("aa".data) ++ END_FORMATTING,
        UNDERLINE ++ ("bb".data) ++ END_FORMATTING] : List Str).length →
      containsSub UNDERLINE (([("aa".data) ++ END_FORMATTING,
        UNDERLINE ++ ("bb".data) ++ END_FORMATTING] : List Str).getD j []) = false) :=
  ⟨⟨by decide, by decide⟩,
    C2_underline_only_on_last
      ⟨[], 2, 3, 0, [], [], [], false, [], ("underline".data), false, none, true, false⟩
      [2] ("L".data) 0 [("aa bb".data)]
      [("aa".data) ++ END_FORMATTING, UNDERLINE ++ ("bb".data) ++ END_FORMATTING]
      (by decide) (by decide) (by decide) (by decide) (by decide)⟩
